import Mathlib

/-!
Verification development for the transcript-cleaning pipeline of the
repository (`clean-transcript.py` and `vttclean.py`).

The Python sources are shallowly embedded over `List Char`.  Character
classes model Python's regex classes on the ASCII range (the repository's
data is ASCII); `\w` is `[a-zA-Z0-9_]`, `\s` is the six ASCII whitespace
characters, and `re.IGNORECASE` folds only `A`-`Z`/`a`-`z`.  Every regex
used by the sources is deterministic once greediness is resolved (each
quantified class is disjoint from what follows it), so each substitution
is embedded as a direct scanning function, written structurally so that
concrete runs reduce inside the kernel.
-/

set_option maxRecDepth 100000

/-- ASCII model of Python's regex class `\w` (`[a-zA-Z0-9_]`). -/
def isWordChar (c : Char) : Bool :=
  decide ((48 ≤ c.toNat ∧ c.toNat ≤ 57) ∨ (65 ≤ c.toNat ∧ c.toNat ≤ 90) ∨
    (97 ≤ c.toNat ∧ c.toNat ≤ 122) ∨ c.toNat = 95)

/-- ASCII model of Python's regex class `\s` (space, tab, newline, carriage
return, vertical tab, form feed). -/
def isSpaceChar (c : Char) : Bool :=
  decide (c.toNat = 32 ∨ c.toNat = 9 ∨ c.toNat = 10 ∨ c.toNat = 13 ∨
    c.toNat = 11 ∨ c.toNat = 12)

/-- ASCII model of the regex class `[a-zA-Z]` (used by the HTML-entity rule). -/
def isAlphaChar (c : Char) : Bool :=
  decide ((65 ≤ c.toNat ∧ c.toNat ≤ 90) ∨ (97 ≤ c.toNat ∧ c.toNat ≤ 122))

/-- ASCII model of the regex class `\d`. -/
def isDigitChar (c : Char) : Bool :=
  decide (48 ≤ c.toNat ∧ c.toNat ≤ 57)

/-- Case-insensitive character comparison, modelling `re.IGNORECASE` on the
ASCII range: two characters agree iff they are equal or are the upper and
lower case forms of one letter. -/
def ciCharEq (a b : Char) : Bool :=
  decide (a = b ∨ (65 ≤ a.toNat ∧ a.toNat ≤ 90 ∧ b.toNat = a.toNat + 32) ∨
    (65 ≤ b.toNat ∧ b.toNat ≤ 90 ∧ a.toNat = b.toNat + 32))

/-- Case-insensitive list comparison (backreference matching under
`re.IGNORECASE`); false when the lengths differ. -/
def ciEqL : List Char → List Char → Bool
  | [], [] => true
  | a :: as, b :: bs => ciCharEq a b && ciEqL as bs
  | _, _ => false

/-- Pointwise case-insensitive comparison of a pattern against the start of
a string (used for the `IGNORECASE`-anchored `WEBVTT` header test). -/
def ciStarts : List Char → List Char → Bool
  | [], _ => true
  | _ :: _, [] => false
  | p :: ps, c :: cs => ciCharEq p c && ciStarts ps cs

/-- Occurrence of `p` as a contiguous run inside `s` (Python's `in`). -/
def containsSeq (p : List Char) : List Char → Bool
  | [] => p.isEmpty
  | c :: rest => p.isPrefixOf (c :: rest) || containsSeq p rest

/-- Substring occurrence as a proposition. -/
def occursIn (p s : List Char) : Prop := ∃ u v, s = u ++ p ++ v

/-- Python's `str.strip()` on the left only (also `re.sub(r'^\s+', '', s)`). -/
def lstripL (s : List Char) : List Char := s.dropWhile isSpaceChar

/-- Python's `str.strip()` on the right only. -/
def rstripL (s : List Char) : List Char := (lstripL s.reverse).reverse

/-- Python's `str.strip()`. -/
def pyStrip (s : List Char) : List Char := lstripL (rstripL s)

/-- Python's `' '.join` on pre-split pieces. -/
def joinSp : List (List Char) → List Char
  | [] => []
  | [l] => l
  | l :: rest => l ++ ' ' :: joinSp rest

/-- Python's `'\n'.join`. -/
def joinNL : List (List Char) → List Char
  | [] => []
  | [l] => l
  | l :: rest => l ++ '\n' :: joinNL rest

/-- Python's `str.split('\n')`: always at least one (possibly empty) piece. -/
def splitNLChar : List Char → List (List Char)
  | [] => [[]]
  | c :: rest =>
    if c = '\n' then [] :: splitNLChar rest
    else
      match splitNLChar rest with
      | [] => [[c]]
      | b :: bs => (c :: b) :: bs

/-- Python's `str.splitlines()` for `'\n'`-separated text: a trailing
newline produces no trailing empty piece, and the empty string has no
pieces. -/
def pySplitlines (s : List Char) : List (List Char) :=
  match s with
  | [] => []
  | _ =>
    if s.getLast? = some '\n' then (splitNLChar s).dropLast else splitNLChar s

/-- The first-character word test used for `\b` boundaries. -/
def isWordHeadB : List Char → Bool
  | [] => false
  | c :: _ => isWordChar c

namespace Difflib

/-- The autojunk popularity test of `SequenceMatcher.__chain_b` with
`isjunk = None` (the caller passes `None`): when `b` has at least 200
elements, elements occurring more than `len(b) // 100 + 1` times are
removed from `b2j` and so never matched by the dynamic programming
(they can still be consumed by the extension loops below). -/
def isPopular (b : List Char) (c : Char) : Bool :=
  decide (200 ≤ b.length) && decide (b.length / 100 + 1 < b.count c)

/-- One row of `SequenceMatcher.find_longest_match`'s dynamic programming:
entry `j` is the length of the longest match ending at the current `a`
index and at `b` index `j` (difflib's `newj2len`), nonzero only for
`blo ≤ j < bhi` with `b[j]` equal to the current `a` character and that
character not purged from `b2j` as popular. -/
def newRow (c : Char) (b : List Char) (blo bhi : Nat) (prev : List Nat) : List Nat :=
  (List.range bhi).map (fun j =>
    if blo ≤ j ∧ b.getD j ' ' = c ∧ isPopular b c = false then
      (if j = 0 then 0 else prev.getD (j - 1) 0) + 1
    else 0)

/-- Best-block update for one `(i, j)` cell: difflib replaces the best block
only on a strictly larger length, scanning `j` in increasing order. -/
def bestStep (i : Nat) (row : List Nat) (best : Nat × Nat × Nat) (j : Nat) : Nat × Nat × Nat :=
  let k := row.getD j 0
  if best.2.2 < k then (i + 1 - k, j + 1 - k, k) else best

/-- Scan one finished row for best-block updates, `j` increasing. -/
def bestOfRow (i : Nat) (row : List Nat) (best : Nat × Nat × Nat) : Nat × Nat × Nat :=
  (List.range row.length).foldl (bestStep i row) best

/-- The `i` loop of `find_longest_match`: `n` rows remain, `prev` is the
previous row. -/
def flmLoop (a b : List Char) (blo bhi : Nat) :
    Nat → Nat → List Nat → Nat × Nat × Nat → Nat × Nat × Nat
  | _, 0, _, best => best
  | i, n + 1, prev, best =>
    let row := newRow (a.getD i ' ') b blo bhi prev
    flmLoop a b blo bhi (i + 1) n row (bestOfRow i row best)

/-- The dynamic-programming phase of `find_longest_match`. -/
def flmRaw (a b : List Char) (alo ahi blo bhi : Nat) : Nat × Nat × Nat :=
  flmLoop a b blo bhi alo (ahi - alo) [] (alo, blo, 0)

/-- The first extension loop of `find_longest_match`: with `isjunk = None`
the junk set is empty, `isbjunk` is constantly false, and the loop grows
the block downward while the preceding elements are equal (this is how a
block may still absorb popular elements).  Each iteration decrements
`besti`, so `besti` iterations of fuel always reach the loop's exit. -/
def extBack (a b : List Char) (alo blo : Nat) :
    Nat → Nat × Nat × Nat → Nat × Nat × Nat
  | 0, best => best
  | fuel + 1, (besti, bestj, bestsize) =>
    if alo < besti ∧ blo < bestj ∧ a.getD (besti - 1) ' ' = b.getD (bestj - 1) ' ' then
      extBack a b alo blo fuel (besti - 1, bestj - 1, bestsize + 1)
    else (besti, bestj, bestsize)

/-- The second extension loop of `find_longest_match`, growing the block
upward; each iteration pushes `besti + bestsize` strictly toward `ahi`,
so `ahi` iterations of fuel always reach the exit.  The remaining two
loops of the source extend over junk elements and never fire with
`isjunk = None`. -/
def extFwd (a b : List Char) (ahi bhi : Nat) :
    Nat → Nat × Nat × Nat → Nat × Nat × Nat
  | 0, best => best
  | fuel + 1, (besti, bestj, bestsize) =>
    if besti + bestsize < ahi ∧ bestj + bestsize < bhi ∧
        a.getD (besti + bestsize) ' ' = b.getD (bestj + bestsize) ' ' then
      extFwd a b ahi bhi fuel (besti, bestj, bestsize + 1)
    else (besti, bestj, bestsize)

/-- `SequenceMatcher.find_longest_match` on index ranges with the default
`isjunk = None` and `autojunk = True` of the source's
`difflib.SequenceMatcher(None, …)` call: the dynamic programming over the
popularity-purged `b2j`, followed by the two non-junk extension loops. -/
def find_longest_match (a b : List Char) (alo ahi blo bhi : Nat) : Nat × Nat × Nat :=
  extFwd a b ahi bhi ahi
    (extBack a b alo blo (flmRaw a b alo ahi blo bhi).1 (flmRaw a b alo ahi blo bhi))

/-- Total matched size of `get_matching_blocks` over a range: the longest
block plus recursion left and right of it.  The fuel only bounds the
recursion depth; `matchTotal` supplies more fuel than the recursion can
consume. -/
def mbTotal (a b : List Char) : Nat → Nat → Nat → Nat → Nat → Nat
  | 0, _, _, _, _ => 0
  | fuel + 1, alo, ahi, blo, bhi =>
    let m := find_longest_match a b alo ahi blo bhi
    if m.2.2 = 0 then 0
    else
      mbTotal a b fuel alo m.1 blo m.2.1 + m.2.2 +
        mbTotal a b fuel (m.1 + m.2.2) ahi (m.2.1 + m.2.2) bhi

/-- The `matches` quantity of `SequenceMatcher.ratio`: the summed sizes of
all matching blocks. -/
def matchTotal (a b : List Char) : Nat :=
  mbTotal a b (a.length + b.length + 1) 0 a.length 0 b.length

/-- `SequenceMatcher.ratio()`: twice the matched total over the combined
length, and 1 when both inputs are empty (difflib's `_calculate_ratio`). -/
def ratioQ (a b : List Char) : ℚ :=
  if a.length + b.length = 0 then 1
  else (2 * matchTotal a b : ℚ) / ((a.length : ℚ) + (b.length : ℚ))

/-- Invariant of a DP row after `m` processed `a`-indices: every nonzero
entry `k` at column `j` satisfies `blo + k ≤ j + 1` (the match fits right
of `blo`), `k ≤ m` (a match cannot outgrow the rows seen) and `j < bhi`. -/
def RowB (m blo bhi : Nat) (row : List Nat) : Prop :=
  ∀ j, row.getD j 0 ≠ 0 → blo + row.getD j 0 ≤ j + 1 ∧ row.getD j 0 ≤ m ∧ j < bhi

/-- Range invariant of a candidate best block. -/
def BestB (alo ahi blo bhi : Nat) (best : Nat × Nat × Nat) : Prop :=
  alo ≤ best.1 ∧ best.1 + best.2.2 ≤ ahi ∧ blo ≤ best.2.1 ∧ best.2.1 + best.2.2 ≤ bhi

end Difflib

namespace CleanTranscript

/-- Stage 1 of `clean_text`: `re.sub(r'<[^>]+>', '', text)`.  The scanner
buffers from an unmatched `<`; a later `>` with a nonempty buffer closes
and deletes the span, a `>` right after `<` leaves both literal, and a
buffer still open at the end of the input was never a match and is
emitted verbatim. -/
def tagAux : Option (List Char) → List Char → List Char
  | none, [] => []
  | some buf, [] => '<' :: buf.reverse
  | none, c :: rest =>
    if c = '<' then tagAux (some []) rest
    else c :: tagAux none rest
  | some buf, c :: rest =>
    if c = '>' then
      if buf.isEmpty then '<' :: '>' :: tagAux none rest
      else tagAux none rest
    else tagAux (some (c :: buf)) rest

/-- Tag-removal stage of `clean_text`. -/
def tagSub (s : List Char) : List Char := tagAux none s

/-- Checker for the bracketed timestamp-range group
`\[\d{2}:\d{2}:\d{2}\.\d{3} --> \d{2}:\d{2}:\d{2}\.\d{3}\]` as a prefix. -/
def bracketTsAt (s : List Char) : Bool :=
  match s with
  | '[' :: a1 :: a2 :: ':' :: b1 :: b2 :: ':' :: c1 :: c2 :: '.' :: d1 :: d2 :: d3 ::
    ' ' :: '-' :: '-' :: '>' :: ' ' :: e1 :: e2 :: ':' :: f1 :: f2 :: ':' :: g1 :: g2 ::
    '.' :: h1 :: h2 :: h3 :: ']' :: _ =>
    isDigitChar a1 && isDigitChar a2 && isDigitChar b1 && isDigitChar b2 &&
    isDigitChar c1 && isDigitChar c2 && isDigitChar d1 && isDigitChar d2 &&
    isDigitChar d3 && isDigitChar e1 && isDigitChar e2 && isDigitChar f1 &&
    isDigitChar f2 && isDigitChar g1 && isDigitChar g2 && isDigitChar h1 &&
    isDigitChar h2 && isDigitChar h3
  | _ => false

/-- Length of the span removed by stage 2 of `clean_text`
(`re.sub(r'^\w+:\s+(\[..ts-range..\])', r'\1', text)`): the leading
`word:` plus following whitespace, when the bracketed timestamp range
follows.  `none` when the anchored pattern does not match. -/
def speakerCutLen (s : List Char) : Option Nat :=
  let w := s.takeWhile isWordChar
  if w.isEmpty then none
  else
    match s.drop w.length with
    | ':' :: t =>
      let sp := t.takeWhile isSpaceChar
      if sp.isEmpty then none
      else if bracketTsAt (t.drop sp.length) then some (w.length + 1 + sp.length)
      else none
    | _ => none

/-- Stage 2 of `clean_text`: replacing the match by its group keeps
everything from the `[` on, so the stage drops the matched lead when the
pattern fires and is the identity otherwise. -/
def speakerSub (s : List Char) : List Char :=
  match speakerCutLen s with
  | some k => s.drop k
  | none => s

/-- Stage 4 of `clean_text` (`re.sub(r'\s+', ' ', text)`) as a scanner: the
flag records that the current position is inside an already-replaced
whitespace run. -/
def collapseAux : Bool → List Char → List Char
  | _, [] => []
  | inRun, c :: rest =>
    if isSpaceChar c then
      if inRun then collapseAux true rest else ' ' :: collapseAux true rest
    else c :: collapseAux false rest

/-- Whitespace-collapsing stage of `clean_text`. -/
def collapseWs (s : List Char) : List Char := collapseAux false s

/-- Stage 5 of `clean_text`: `re.sub(r'&[a-zA-Z]+;', ' ', text)`.  The
scanner buffers letters after `&`; `;` with a nonempty buffer completes
the entity (replaced by one space), anything else abandons the attempt
and re-examines the offending character, which can itself start a new
attempt only when it is `&`. -/
def entAux : Option (List Char) → List Char → List Char
  | none, [] => []
  | some buf, [] => '&' :: buf.reverse
  | none, c :: rest =>
    if c = '&' then entAux (some []) rest
    else c :: entAux none rest
  | some buf, c :: rest =>
    if c = ';' then
      if buf.isEmpty then '&' :: ';' :: entAux none rest
      else ' ' :: entAux none rest
    else if isAlphaChar c then entAux (some (c :: buf)) rest
    else if c = '&' then ('&' :: buf.reverse) ++ entAux (some []) rest
    else ('&' :: buf.reverse) ++ (c :: entAux none rest)

/-- Entity-replacement stage of `clean_text`. -/
def entSub (s : List Char) : List Char := entAux none s

/-- The `clean_text` function of `clean-transcript.py`: tag removal, speaker
prefix removal, leading-whitespace strip, whitespace collapsing, entity
replacement, final strip — in source order. -/
def clean_text (s : List Char) : List Char :=
  pyStrip (entSub (collapseWs (lstripL (speakerSub (tagSub s)))))

/-- Remainder after the first `"\n\n"` (the non-greedy `.*?\n\n` tail used
by the header, NOTE and STYLE removals). -/
def findNN : List Char → Option (List Char)
  | '\n' :: '\n' :: rest => some rest
  | _ :: rest => findNN rest
  | [] => none

/-- Header removal:
`re.sub(r'^WEBVTT.*?\n\n', '', content, flags=re.DOTALL | re.IGNORECASE)`.
Anchored, so at most one removal: the span runs from a case-insensitive
leading `WEBVTT` through the first following `"\n\n"`. -/
def headerCut (s : List Char) : List Char :=
  if ciStarts "WEBVTT".data s then
    match findNN (s.drop 6) with
    | some rest => rest
    | none => s
  else s

/-- Removal of `NOTE` blocks: `re.sub(r'NOTE.*?\n\n', '', content,
flags=re.DOTALL)`.  Each literal `NOTE` opens a candidate span that closes
at the first `"\n\n"`; with no `"\n\n"` left the candidate fails, and no
later candidate can succeed either, so the buffered text is literal. -/
def noteAux : Option (List Char) → List Char → List Char
  | none, [] => []
  | some buf, [] => buf.reverse
  | none, 'N' :: 'O' :: 'T' :: 'E' :: rest => noteAux (some ['E', 'T', 'O', 'N']) rest
  | none, c :: rest => c :: noteAux none rest
  | some _, '\n' :: '\n' :: rest => noteAux none rest
  | some buf, c :: rest => noteAux (some (c :: buf)) rest

/-- NOTE-block removal stage of `process_vtt`. -/
def noteCut (s : List Char) : List Char := noteAux none s

/-- Removal of `STYLE` blocks, same shape as `noteAux`. -/
def styleAux : Option (List Char) → List Char → List Char
  | none, [] => []
  | some buf, [] => buf.reverse
  | none, 'S' :: 'T' :: 'Y' :: 'L' :: 'E' :: rest =>
    styleAux (some ['E', 'L', 'Y', 'T', 'S']) rest
  | none, c :: rest => c :: styleAux none rest
  | some _, '\n' :: '\n' :: rest => styleAux none rest
  | some buf, c :: rest => styleAux (some (c :: buf)) rest

/-- STYLE-block removal stage of `process_vtt`. -/
def styleCut (s : List Char) : List Char := styleAux none s

/-- `re.split(r'\n\n+', content)` for already-stripped content (the source
always strips first, so separator runs are strictly interior): blocks are
the maximal runs of lines not separated by blank lines. -/
def splitBlocksStripped (s : List Char) : List (List Char) :=
  match s with
  | [] => [[]]
  | _ =>
    (((splitNLChar s).splitOnP List.isEmpty).filter (fun r => !r.isEmpty)).map joinNL

/-- The `'-->' in line` scan of `process_vtt`: the first line containing
the arrow, with all following lines as the text. -/
def findArrowLine : List (List Char) → Option (List Char × List (List Char))
  | [] => none
  | l :: rest =>
    if containsSeq "-->".data l then some (l, rest) else findArrowLine rest

/-- Python's `str.strip('[]')`. -/
def stripBrk (s : List Char) : List Char :=
  ((s.dropWhile (fun c => c = '[' ∨ c = ']')).reverse.dropWhile
    (fun c => c = '[' ∨ c = ']')).reverse

/-- The `\s*-->` tail of the strict timestamp pattern: `-` is not
whitespace, so the greedy `\s*` is forced to the full space run. -/
def arrowAfter (s : List Char) : Bool :=
  "-->".data.isPrefixOf (s.dropWhile isSpaceChar)

/-- `re.match(r'(\d{2}:\d{2}:\d{2})\.\d{3}\s*-->', timestamp_line)`:
the captured `HH:MM:SS` group on success. -/
def matchStartTs : List Char → Option (List Char)
  | a1 :: a2 :: ':' :: b1 :: b2 :: ':' :: c1 :: c2 :: '.' :: d1 :: d2 :: d3 :: rest =>
    if isDigitChar a1 && isDigitChar a2 && isDigitChar b1 && isDigitChar b2 &&
        isDigitChar c1 && isDigitChar c2 && isDigitChar d1 && isDigitChar d2 &&
        isDigitChar d3 && arrowAfter rest then
      some [a1, a2, ':', b1, b2, ':', c1, c2]
    else none
  | _ => none

/-- The per-caption body of `process_vtt`'s loop: `none` exactly when the
block is skipped (no `-->` line, stripped timestamp line empty, strict
timestamp pattern fails, or cleaned text empty). -/
def processBlock (caption : List Char) : Option (List Char) :=
  match findArrowLine (splitNLChar (pyStrip caption)) with
  | none => none
  | some (tsLine, textLines) =>
    let ts2 := stripBrk tsLine
    if ts2.isEmpty then none
    else
      match matchStartTs ts2 with
      | none => none
      | some ts8 =>
        let cleaned := clean_text (pyStrip (joinSp textLines))
        if cleaned.isEmpty then none else some (ts8 ++ ' ' :: cleaned)

/-- The `process_vtt` function of `clean-transcript.py`. -/
def process_vtt (content : List Char) : List Char :=
  joinNL ((splitBlocksStripped (pyStrip (styleCut (noteCut (headerCut content))))).filterMap
    processBlock)

/-- The turn-marker token `[SPEAKER_TURN]`. -/
def turnMarker : List Char := "[SPEAKER_TURN]".data

/-- One step of `remove_line_stuttering`'s loop over lines: an empty
accumulator keeps the line; a line containing `[SPEAKER_TURN]` is always
kept; otherwise the line is dropped exactly when its similarity to the
most recently kept line reaches the threshold. -/
def dedupStep (τ : ℚ) (kept : List (List Char)) (line : List Char) : List (List Char) :=
  match kept.getLast? with
  | none => [line]
  | some prev =>
    if containsSeq turnMarker line then kept ++ [line]
    else if τ ≤ Difflib.ratioQ (pyStrip prev) (pyStrip line) then kept
    else kept ++ [line]

/-- The `remove_line_stuttering` function of `clean-transcript.py`
(threshold default 0.8). -/
def remove_line_stuttering (τ : ℚ) (transcript : List Char) : List Char :=
  joinNL ((pySplitlines transcript).foldl (dedupStep τ) [])

/-- Attempted match of `\b(\w+)\s+\1\b` at the current position (the caller
guarantees the leading boundary: previous character non-word, current
word).  Greediness is forced: `(\w+)` must take the whole word run (a
shorter take leaves a word character where `\s+` needs whitespace), and
`\s+` must take the whole space run (the backreference starts with a word
character).  On success, the replacement `\1` is the group `w` and
scanning resumes after the match. -/
def pairMatch (s : List Char) : Option (List Char × List Char) :=
  let w := s.takeWhile isWordChar
  let t := s.dropWhile isWordChar
  let sp := t.takeWhile isSpaceChar
  let u := t.dropWhile isSpaceChar
  if w.isEmpty || sp.isEmpty then none
  else
    let v := u.take w.length
    if ciEqL v w && (isWordHeadB v.reverse != isWordHeadB (u.drop w.length)) then
      some (w, u.drop w.length)
    else none

/-- The scan of `stutter_pattern.sub(r'\1', text)`: `pw` records whether the
previous character was a word character (false at the start of the
string), which decides the leading `\b`.  The fuel argument only bounds
the recursion; every step consumes at least one character, so fuel equal
to the length (as supplied by `pairSubL`) never runs out. -/
def pairSubF : Nat → Bool → List Char → List Char
  | 0, _, s => s
  | _ + 1, _, [] => []
  | fuel + 1, pw, c :: rest =>
    if !pw && isWordChar c then
      match pairMatch (c :: rest) with
      | some (w, after) => w ++ pairSubF fuel true after
      | none => c :: pairSubF fuel (isWordChar c) rest
    else c :: pairSubF fuel (isWordChar c) rest

/-- One full pass of the adjacent-pair stutter substitution. -/
def pairSubL (s : List Char) : List Char := pairSubF s.length false s

/-- The `while text != prev_text` fixed-point loop of
`remove_word_stuttering`; each changing pass strictly shortens the text,
so `length + 1` fuel always reaches the fixed point. -/
def pairFixAux : Nat → List Char → List Char
  | 0, s => s
  | fuel + 1, s =>
    let s2 := pairSubL s
    if s2 = s then s else pairFixAux fuel s2

/-- Greedy parse of the `(\s+\1)` repetitions of the triple pattern (fuel
as in `pairSubF`): each chunk is a forced-maximal whitespace run followed
by a case-insensitive copy of `w`. -/
def repChunksF : Nat → List Char → List Char → List (List Char)
  | 0, _, _ => []
  | _ + 1, _, [] => []
  | fuel + 1, w, c :: t2 =>
    if isSpaceChar c then
      let sp := c :: t2.takeWhile isSpaceChar
      let u := t2.dropWhile isSpaceChar
      let v := u.take w.length
      if ciEqL v w then (sp ++ v) :: repChunksF fuel w (u.drop w.length) else []
    else []

/-- The repetition chunks of the triple pattern after the leading group. -/
def repChunks (w t : List Char) : List (List Char) := repChunksF t.length w t

/-- Combined length of parsed chunks. -/
def chunksLen (cs : List (List Char)) : Nat := (cs.map List.length).sum

/-- Backtracking of the greedy `{2,}` quantifier: starting from all parsed
repetitions, drop the last one while the trailing `\b` fails, never going
below two.  Returns the consumed length of the repetition part. -/
def tripleTryF : Nat → List Char → List (List Char) → Option Nat
  | 0, _, _ => none
  | fuel + 1, t, cs =>
    if cs.length < 2 then none
    else if isWordHeadB (cs.getLastD []).reverse != isWordHeadB (t.drop (chunksLen cs)) then
      some (chunksLen cs)
    else tripleTryF fuel t cs.dropLast

/-- The backtracking search with sufficient fuel. -/
def tripleTry (t : List Char) (cs : List (List Char)) : Option Nat := tripleTryF cs.length t cs

/-- Attempted match of `\b(\w+)(\s+\1){2,}\b` at the current position
(leading boundary guaranteed by the caller, as in `pairMatch`). -/
def tripleMatch (s : List Char) : Option (List Char × List Char) :=
  let w := s.takeWhile isWordChar
  let t := s.dropWhile isWordChar
  if w.isEmpty then none
  else
    match tripleTry t (repChunks w t) with
    | some len => some (w, t.drop len)
    | none => none

/-- The scan of `triple_pattern.sub(r'\1', text)` (fuel as in `pairSubF`). -/
def tripleSubF : Nat → Bool → List Char → List Char
  | 0, _, s => s
  | _ + 1, _, [] => []
  | fuel + 1, pw, c :: rest =>
    if !pw && isWordChar c then
      match tripleMatch (c :: rest) with
      | some (w, after) => w ++ tripleSubF fuel true after
      | none => c :: tripleSubF fuel (isWordChar c) rest
    else c :: tripleSubF fuel (isWordChar c) rest

/-- One full pass of the triple-repetition substitution. -/
def tripleSubL (s : List Char) : List Char := tripleSubF s.length false s

/-- The `remove_word_stuttering` function of `clean-transcript.py`: the
pair-collapsing fixed point followed by one triple-collapsing pass. -/
def remove_word_stuttering (s : List Char) : List Char :=
  tripleSubL (pairFixAux (s.length + 1) s)

/-- The `clean_transcript` function of `clean-transcript.py`: the VTT
branch only converts (line/word stutter removal is commented out there);
the plain branch normalizes, deduplicates at the default threshold and
collapses word stutter. -/
def clean_transcript (raw : List Char) (is_vtt : Bool) : List Char :=
  if is_vtt then process_vtt raw
  else remove_word_stuttering (remove_line_stuttering (4 / 5) (clean_text raw))

/-- The format detection of `main`:
`filename.lower().endswith('.vtt') or raw_text.startswith('WEBVTT') or
'[00:00:' in raw_text`. -/
def detect_vtt (filename raw : List Char) : Bool :=
  ciStarts ".vtt".data.reverse filename.reverse ||
    "WEBVTT".data.isPrefixOf raw || containsSeq "[00:00:".data raw

end CleanTranscript

namespace Vttclean

/-- The `clean_text` of `vttclean.py`: `re.sub(r'<[^>]+>|\s+', ' ',
text).strip()`.  One scanner handles the ordered alternation: a tag span
becomes one space, a maximal whitespace run becomes one space, and a tag
attempt still open at the end of the input never matched, so its chars
are rescanned — `<` is then literal and only whitespace runs inside the
buffer can still match. -/
def vcAux : Option (List Char) → Bool → List Char → List Char
  | none, _, [] => []
  | some buf, _, [] => '<' :: CleanTranscript.collapseAux false buf.reverse
  | none, sp, c :: rest =>
    if c = '<' then vcAux (some []) false rest
    else if isSpaceChar c then
      if sp then vcAux none true rest else ' ' :: vcAux none true rest
    else c :: vcAux none false rest
  | some buf, _, c :: rest =>
    if c = '>' then
      if buf.isEmpty then '<' :: '>' :: vcAux none false rest
      else ' ' :: vcAux none false rest
    else vcAux (some (c :: buf)) false rest

/-- The `clean_text` function of `vttclean.py`. -/
def clean_text (text : List Char) : List Char := pyStrip (vcAux none false text)

/-- `re.match(r'(\d{2}:\d{2}:\d{2})\.(\d{3}) --> (\d{2}:\d{2}:\d{2})\.(\d{3})', line)`:
the captured start group on success. -/
def matchFullRange : List Char → Option (List Char)
  | a1 :: a2 :: ':' :: b1 :: b2 :: ':' :: c1 :: c2 :: '.' :: d1 :: d2 :: d3 ::
    ' ' :: '-' :: '-' :: '>' :: ' ' :: e1 :: e2 :: ':' :: f1 :: f2 :: ':' :: g1 :: g2 ::
    '.' :: h1 :: h2 :: h3 :: _ =>
    if isDigitChar a1 && isDigitChar a2 && isDigitChar b1 && isDigitChar b2 &&
        isDigitChar c1 && isDigitChar c2 && isDigitChar d1 && isDigitChar d2 &&
        isDigitChar d3 && isDigitChar e1 && isDigitChar e2 && isDigitChar f1 &&
        isDigitChar f2 && isDigitChar g1 && isDigitChar g2 && isDigitChar h1 &&
        isDigitChar h2 && isDigitChar h3 then
      some [a1, a2, ':', b1, b2, ':', c1, c2]
    else none
  | _ => none

/-- The caption emitted for one collected group, if its cleaned text is
nonempty. -/
def emitCaption (ts : List Char) (acc : List (List Char)) : List (List Char) :=
  let cleaned := clean_text (joinSp acc.reverse)
  if cleaned.isEmpty then [] else [ts ++ ' ' :: cleaned]

/-- The line loop of `vttclean.py`'s `process_vtt`: scanning mode skips
lines until a full timestamp range matches; collecting mode gathers
following lines until a blank line or the end (a blank line can never
match the range pattern, so consuming it is equivalent to the source's
re-test of it). -/
def vttLoopAux : Option (List Char × List (List Char)) → List (List Char) → List (List Char)
  | none, [] => []
  | some (ts, acc), [] => emitCaption ts acc
  | none, l :: rest =>
    match matchFullRange l with
    | some ts => vttLoopAux (some (ts, [])) rest
    | none => vttLoopAux none rest
  | some (ts, acc), l :: rest =>
    if (pyStrip l).isEmpty then emitCaption ts acc ++ vttLoopAux none rest
    else vttLoopAux (some (ts, l :: acc)) rest

/-- The `process_vtt` function of `vttclean.py`. -/
def process_vtt (content : List Char) : List Char :=
  joinNL (vttLoopAux none (pySplitlines content))

end Vttclean

example : Difflib.isPopular (List.replicate 200 'a') 'a' = true := by decide
example : Difflib.isPopular "the quick fox.".data 'q' = false := by decide
example : CleanTranscript.clean_text "a &quot; b".data = "a   b".data := by decide
example : CleanTranscript.tagSub "x<i>y</i>z".data = "xyz".data := by decide
example : CleanTranscript.clean_text "  Hi   there ".data = "Hi there".data := by decide
example :
    CleanTranscript.speakerSub "Bob: [00:00:01.000 --> 00:00:02.000] hi".data =
      "[00:00:01.000 --> 00:00:02.000] hi".data := by decide
example :
    CleanTranscript.process_vtt
        "WEBVTT\n\n00:00:00.000 --> 00:00:02.000\nHi hi there\n\n00:00:02.000 --> 00:00:04.000\nHi there".data =
      "00:00:00 Hi hi there\n00:00:02 Hi there".data := by decide
example : Difflib.matchTotal "the quick fox".data "the quick fox.".data = 13 := by decide
example : Difflib.ratioQ "the quick fox".data "the quick fox.".data = 26 / 27 := by
  have h : Difflib.matchTotal "the quick fox".data "the quick fox.".data = 13 := by decide
  simp only [Difflib.ratioQ, h]
  norm_num

/-! ## Claim theorems: concrete evaluations -/

/-- C1: the claim (and the module's own docstring) says a block whose
candidates form a prefix chain merges to exactly one caption carrying the
first candidate's timestamp and the last candidate's text, so the
docstring's own example block must become `00:00:01 BANANA`.  The code
never performs any merge (`is_prefix` is defined but never called): the
multi-candidate block yields no output line at all, and the same chain
written as timestamp-range cues yields one line with all the intermediate
timestamps and texts concatenated. -/
theorem C1_code_eval :
    CleanTranscript.process_vtt "WEBVTT\n\n00:00:01 BA\n00:00:02 BANA\n00:00:03 BANANA".data =
      [] ∧
    CleanTranscript.process_vtt
        "WEBVTT\n\n00:00:01.000 --> 00:00:02.000\nBA\n00:00:02.000 --> 00:00:03.000\nBANA\n00:00:03.000 --> 00:00:04.000\nBANANA".data =
      "00:00:01 BA 00:00:02.000 --> 00:00:03.000 BANA 00:00:03.000 --> 00:00:04.000 BANANA".data ∧
    CleanTranscript.process_vtt
        "WEBVTT\n\n00:00:01.000 --> 00:00:02.000\nBA\n00:00:02.000 --> 00:00:03.000\nBANA\n00:00:03.000 --> 00:00:04.000\nBANANA".data ≠
      "00:00:01 BANANA".data := by
  refine ⟨by decide, by decide, by decide⟩

/-- C2 counterexample: on the claim's own end-to-end input, the pipeline
with the cue-timed flag yields the two lines `00:00:00 Hi hi there` and
`00:00:02 Hi there`, not the single claimed line `00:00:00 Hi there`:
in the cue-timed branch of `clean_transcript`, the deduplicator and the
word-stutter collapser are never invoked (the source has those calls
commented out). -/
theorem C2_counterexample :
    CleanTranscript.clean_transcript
        "WEBVTT\n\n00:00:00.000 --> 00:00:02.000\nHi hi there\n\n00:00:02.000 --> 00:00:04.000\nHi there".data
        true =
      "00:00:00 Hi hi there\n00:00:02 Hi there".data ∧
    CleanTranscript.clean_transcript
        "WEBVTT\n\n00:00:00.000 --> 00:00:02.000\nHi hi there\n\n00:00:02.000 --> 00:00:04.000\nHi there".data
        true ≠
      "00:00:00 Hi there".data := by
  refine ⟨by decide, by decide⟩

/-- C2 amended: for cue-timed input the pipeline applies cue parsing and
per-candidate normalization only — the Line Deduplicator and the Word
Stutter Collapser are skipped — so the claim's input yields the two lines
`00:00:00 Hi hi there` and `00:00:02 Hi there` (stutter intact, nothing
deduplicated). -/
theorem C2_amended :
    (∀ raw : List Char,
      CleanTranscript.clean_transcript raw true = CleanTranscript.process_vtt raw) ∧
    CleanTranscript.clean_transcript
        "WEBVTT\n\n00:00:00.000 --> 00:00:02.000\nHi hi there\n\n00:00:02.000 --> 00:00:04.000\nHi there".data
        true =
      "00:00:00 Hi hi there\n00:00:02 Hi there".data := by
  exact ⟨fun raw => rfl, by decide⟩

/-- C5: the Format Classifier returns true exactly when the filename hint
ends (case-insensitively) in `.vtt`, or the content starts with `WEBVTT`,
or the content contains the embedded bracketed timestamp token `[00:00:`;
it is a total function and returns false when all three tests fail. -/
theorem C5_classifier (filename raw : List Char) :
    (CleanTranscript.detect_vtt filename raw = true ↔
      (ciStarts ".vtt".data.reverse filename.reverse = true ∨
        "WEBVTT".data.isPrefixOf raw = true ∨ containsSeq "[00:00:".data raw = true)) ∧
    (ciStarts ".vtt".data.reverse filename.reverse = false →
      "WEBVTT".data.isPrefixOf raw = false → containsSeq "[00:00:".data raw = false →
      CleanTranscript.detect_vtt filename raw = false) := by
  constructor
  · simp [CleanTranscript.detect_vtt, Bool.or_eq_true, or_assoc]
  · intro h1 h2 h3
    simp only [CleanTranscript.detect_vtt, h1, h2, h3, Bool.or_false, Bool.false_or]

/-- C5 witness: the classifier at concrete evidence-free input. -/
theorem C5_witness :
    CleanTranscript.detect_vtt "notes.txt".data "hello world".data = false :=
  (C5_classifier "notes.txt".data "hello world".data).2 (by decide) (by decide) (by decide)

/-- C10: the Text Normalizer's output is not always single-spaced: entity
replacement runs after whitespace collapsing, so `a &quot; b` normalizes
to `a   b`, which contains a run of consecutive spaces. -/
theorem C10_entity_after_collapse :
    CleanTranscript.clean_text "a &quot; b".data = "a   b".data ∧
    containsSeq "  ".data (CleanTranscript.clean_text "a &quot; b".data) = true := by
  refine ⟨by decide, by decide⟩

/-- C9 counterexample: the two `process_vtt` variants disagree: on a
bracket-wrapped timestamp line, `clean-transcript.py` strips the brackets
and emits the caption while `vttclean.py`'s anchored match fails and
emits nothing. -/
theorem C9_counterexample :
    CleanTranscript.process_vtt "[00:00:01.000 --> 00:00:02.000]\nHi".data =
      "00:00:01 Hi".data ∧
    Vttclean.process_vtt "[00:00:01.000 --> 00:00:02.000]\nHi".data = [] ∧
    CleanTranscript.process_vtt "[00:00:01.000 --> 00:00:02.000]\nHi".data ≠
      Vttclean.process_vtt "[00:00:01.000 --> 00:00:02.000]\nHi".data := by
  refine ⟨by decide, by decide, by decide⟩

/-! ## Skip behaviour of the cue-block loop -/

theorem findArrowLine_eq_none {ls : List (List Char)}
    (h : ∀ l ∈ ls, containsSeq "-->".data l = false) :
    CleanTranscript.findArrowLine ls = none := by
  induction ls with
  | nil => rfl
  | cons l rest ih =>
    simp only [CleanTranscript.findArrowLine]
    rw [h l (by simp)]
    simp only [Bool.false_eq_true, if_false]
    exact ih fun x hx => h x (by simp [hx])

/-- C8: a block with no `-->` line, a block whose (bracket-stripped) first
`-->` line fails the strict timestamp pattern, and a block whose cleaned
text is empty each produce `none`, and a `none` block drops out of the
caption loop while every other block is still processed; totality of the
embedded functions models that none of these conditions raises. -/
theorem C8_skip_blocks :
    (∀ caption : List Char,
      (∀ l ∈ splitNLChar (pyStrip caption), containsSeq "-->".data l = false) →
      CleanTranscript.processBlock caption = none) ∧
    (∀ caption tsLine textLines,
      CleanTranscript.findArrowLine (splitNLChar (pyStrip caption)) = some (tsLine, textLines) →
      CleanTranscript.matchStartTs (CleanTranscript.stripBrk tsLine) = none →
      CleanTranscript.processBlock caption = none) ∧
    (∀ caption tsLine textLines,
      CleanTranscript.findArrowLine (splitNLChar (pyStrip caption)) = some (tsLine, textLines) →
      CleanTranscript.clean_text (pyStrip (joinSp textLines)) = [] →
      CleanTranscript.processBlock caption = none) ∧
    (∀ (pre post : List (List Char)) (bad : List Char),
      CleanTranscript.processBlock bad = none →
      (pre ++ bad :: post).filterMap CleanTranscript.processBlock =
        pre.filterMap CleanTranscript.processBlock ++
          post.filterMap CleanTranscript.processBlock) := by
  refine ⟨?_, ?_, ?_, ?_⟩
  · intro caption h
    unfold CleanTranscript.processBlock
    rw [findArrowLine_eq_none h]
  · intro caption tsLine textLines h1 h2
    unfold CleanTranscript.processBlock
    rw [h1]
    by_cases he : (CleanTranscript.stripBrk tsLine).isEmpty
    · simp [he]
    · simp [he, h2]
  · intro caption tsLine textLines h1 h2
    unfold CleanTranscript.processBlock
    rw [h1]
    by_cases he : (CleanTranscript.stripBrk tsLine).isEmpty
    · simp [he]
    · cases hm : CleanTranscript.matchStartTs (CleanTranscript.stripBrk tsLine) with
      | none => simp [he, hm]
      | some ts8 => simp [he, hm, h2]
  · intro pre post bad h
    simp [List.filterMap_append, List.filterMap_cons, h]

/-- C8 witness: the three skip conditions at concrete blocks, and the
caption loop continuing past a skipped block. -/
theorem C8_witness :
    CleanTranscript.processBlock "no timestamp line".data = none ∧
    CleanTranscript.processBlock "0:00:01.000 --> 00:00:02.000\nhello".data = none ∧
    CleanTranscript.processBlock "00:00:01.000 --> 00:00:02.000\n<i></i>".data = none ∧
    (["00:00:01.000 --> 00:00:02.000\nfirst".data] ++
        "no timestamp line".data :: ["00:00:03.000 --> 00:00:04.000\nlast".data]).filterMap
        CleanTranscript.processBlock =
      ["00:00:01.000 --> 00:00:02.000\nfirst".data].filterMap CleanTranscript.processBlock ++
        ["00:00:03.000 --> 00:00:04.000\nlast".data].filterMap CleanTranscript.processBlock := by
  refine ⟨C8_skip_blocks.1 _ (by decide),
    C8_skip_blocks.2.1 _ "0:00:01.000 --> 00:00:02.000".data ["hello".data]
      (by decide) (by decide),
    C8_skip_blocks.2.2.1 _ "00:00:01.000 --> 00:00:02.000".data ["<i></i>".data]
      (by decide) (by decide),
    C8_skip_blocks.2.2.2 _ _ _ (C8_skip_blocks.1 _ (by decide))⟩

/-! ## Bounds of the difflib similarity ratio -/

theorem Difflib.newRow_getD (c : Char) (b : List Char) (blo bhi : Nat) (prev : List Nat) (j : Nat) :
    (newRow c b blo bhi prev).getD j 0 =
      if j < bhi then
        (if blo ≤ j ∧ b.getD j ' ' = c ∧ isPopular b c = false then
          (if j = 0 then 0 else prev.getD (j - 1) 0) + 1
        else 0)
      else 0 := by
  by_cases h : j < bhi
  · rw [if_pos h, newRow, List.getD_eq_getElem?_getD, List.getElem?_map, List.getElem?_range h]
    rfl
  · rw [if_neg h, newRow, List.getD_eq_getElem?_getD, List.getElem?_map,
      List.getElem?_eq_none (by simpa [List.length_range] using Nat.le_of_not_lt h)]
    rfl

theorem Difflib.rowB_new {m blo bhi : Nat} {prev : List Nat} (hp : RowB m blo bhi prev)
    (c : Char) (b : List Char) : RowB (m + 1) blo bhi (newRow c b blo bhi prev) := by
  intro j hne
  rw [newRow_getD] at hne ⊢
  by_cases hj : j < bhi
  · rw [if_pos hj] at hne ⊢
    by_cases hc : blo ≤ j ∧ b.getD j ' ' = c ∧ isPopular b c = false
    · rw [if_pos hc] at hne ⊢
      refine ⟨?_, ?_, hj⟩
      · by_cases h0 : j = 0
        · subst h0
          simp only [reduceIte]
          omega
        · rw [if_neg h0]
          by_cases hz : prev.getD (j - 1) 0 = 0
          · rw [hz]; omega
          · have := hp (j - 1) hz
            omega
      · by_cases h0 : j = 0
        · subst h0; simp only [reduceIte]; omega
        · rw [if_neg h0]
          by_cases hz : prev.getD (j - 1) 0 = 0
          · rw [hz]; omega
          · have := hp (j - 1) hz
            omega
    · rw [if_neg hc] at hne; exact absurd rfl hne
  · rw [if_neg hj] at hne; exact absurd rfl hne

theorem Difflib.bestStep_b {alo ahi blo bhi m i : Nat} {row : List Nat} {best : Nat × Nat × Nat}
    (hi : i < ahi) (halo : alo ≤ i) (hm : m ≤ i + 1 - alo) (hr : RowB m blo bhi row)
    (hb : BestB alo ahi blo bhi best) (j : Nat) :
    BestB alo ahi blo bhi (bestStep i row best j) := by
  obtain ⟨hb1, hb2, hb3, hb4⟩ := hb
  unfold bestStep
  by_cases hlt : best.2.2 < row.getD j 0
  · rw [if_pos hlt]
    have hne : row.getD j 0 ≠ 0 := by omega
    obtain ⟨hr1, hr2, hr3⟩ := hr j hne
    refine ⟨?_, ?_, ?_, ?_⟩ <;> dsimp only <;> omega
  · rw [if_neg hlt]; exact ⟨hb1, hb2, hb3, hb4⟩

theorem Difflib.bestOfRow_b {alo ahi blo bhi m i : Nat} {row : List Nat} {best : Nat × Nat × Nat}
    (hi : i < ahi) (halo : alo ≤ i) (hm : m ≤ i + 1 - alo) (hr : RowB m blo bhi row)
    (hb : BestB alo ahi blo bhi best) :
    BestB alo ahi blo bhi (bestOfRow i row best) := by
  unfold bestOfRow
  generalize (List.range row.length) = js
  induction js generalizing best with
  | nil => exact hb
  | cons j js ih =>
    exact ih (bestStep_b hi halo hm hr hb j)

theorem Difflib.flmLoop_b {a b : List Char} {alo ahi blo bhi : Nat} :
    ∀ (n i : Nat) (prev : List Nat) (best : Nat × Nat × Nat),
      i + n = ahi → alo ≤ i → RowB (i - alo) blo bhi prev → BestB alo ahi blo bhi best →
      BestB alo ahi blo bhi (flmLoop a b blo bhi i n prev best) := by
  intro n
  induction n with
  | zero => intro i prev best _ _ _ hb; exact hb
  | succ n ih =>
    intro i prev best hsum halo hrow hb
    show BestB alo ahi blo bhi
      (flmLoop a b blo bhi (i + 1) n (newRow (a.getD i ' ') b blo bhi prev)
        (bestOfRow i (newRow (a.getD i ' ') b blo bhi prev) best))
    have hrow2 : RowB (i - alo + 1) blo bhi (newRow (a.getD i ' ') b blo bhi prev) :=
      rowB_new hrow _ _
    have hi : i < ahi := by omega
    refine ih (i + 1) _ _ (by omega) (by omega) ?_ (bestOfRow_b hi halo (by omega) hrow2 hb)
    have : i + 1 - alo = i - alo + 1 := by omega
    rw [this]
    exact hrow2

theorem Difflib.extBack_b {a b : List Char} {alo ahi blo bhi : Nat} :
    ∀ (fuel : Nat) (best : Nat × Nat × Nat), BestB alo ahi blo bhi best →
      BestB alo ahi blo bhi (extBack a b alo blo fuel best) := by
  intro fuel
  induction fuel with
  | zero => intro best hb; exact hb
  | succ fuel ih =>
    intro best hb
    obtain ⟨bi, bj, bs⟩ := best
    obtain ⟨h1, h2, h3, h4⟩ := hb
    dsimp only at h1 h2 h3 h4
    simp only [extBack]
    split
    · rename_i hcond
      obtain ⟨hc1, hc2, hc3⟩ := hcond
      refine ih _ ?_
      refine ⟨?_, ?_, ?_, ?_⟩ <;> dsimp only <;> omega
    · exact ⟨h1, h2, h3, h4⟩

theorem Difflib.extFwd_b {a b : List Char} {alo ahi blo bhi : Nat} :
    ∀ (fuel : Nat) (best : Nat × Nat × Nat), BestB alo ahi blo bhi best →
      BestB alo ahi blo bhi (extFwd a b ahi bhi fuel best) := by
  intro fuel
  induction fuel with
  | zero => intro best hb; exact hb
  | succ fuel ih =>
    intro best hb
    obtain ⟨bi, bj, bs⟩ := best
    obtain ⟨h1, h2, h3, h4⟩ := hb
    dsimp only at h1 h2 h3 h4
    simp only [extFwd]
    split
    · rename_i hcond
      obtain ⟨hc1, hc2, hc3⟩ := hcond
      refine ih _ ?_
      refine ⟨?_, ?_, ?_, ?_⟩ <;> dsimp only <;> omega
    · exact ⟨h1, h2, h3, h4⟩

theorem Difflib.flm_b {a b : List Char} {alo ahi blo bhi : Nat} (h1 : alo ≤ ahi) (h2 : blo ≤ bhi) :
    BestB alo ahi blo bhi (find_longest_match a b alo ahi blo bhi) := by
  have hraw : BestB alo ahi blo bhi (flmRaw a b alo ahi blo bhi) := by
    refine flmLoop_b (ahi - alo) alo [] (alo, blo, 0) (by omega) (by omega) ?_ ?_
    · intro j hne
      simp at hne
    · exact ⟨Nat.le_refl _, by simpa using h1, Nat.le_refl _, by simpa using h2⟩
  unfold find_longest_match
  exact extFwd_b _ _ (extBack_b _ _ hraw)

theorem Difflib.mbTotal_le {a b : List Char} :
    ∀ (fuel alo ahi blo bhi : Nat), alo ≤ ahi → blo ≤ bhi →
      mbTotal a b fuel alo ahi blo bhi ≤ ahi - alo ∧
        mbTotal a b fuel alo ahi blo bhi ≤ bhi - blo := by
  intro fuel
  induction fuel with
  | zero => intro alo ahi blo bhi _ _; exact ⟨Nat.zero_le _, Nat.zero_le _⟩
  | succ fuel ih =>
    intro alo ahi blo bhi h1 h2
    obtain ⟨hb1, hb2, hb3, hb4⟩ := flm_b (a := a) (b := b) h1 h2
    simp only [mbTotal]
    by_cases hz : (find_longest_match a b alo ahi blo bhi).2.2 = 0
    · rw [if_pos hz]
      exact ⟨Nat.zero_le _, Nat.zero_le _⟩
    · rw [if_neg hz]
      have hL := ih alo (find_longest_match a b alo ahi blo bhi).1 blo
        (find_longest_match a b alo ahi blo bhi).2.1 hb1 hb3
      have hR := ih ((find_longest_match a b alo ahi blo bhi).1 +
          (find_longest_match a b alo ahi blo bhi).2.2) ahi
        ((find_longest_match a b alo ahi blo bhi).2.1 +
          (find_longest_match a b alo ahi blo bhi).2.2) bhi (by omega) (by omega)
      omega

theorem Difflib.matchTotal_le (a b : List Char) :
    matchTotal a b ≤ a.length ∧ matchTotal a b ≤ b.length := by
  have h := mbTotal_le (a := a) (b := b) (a.length + b.length + 1) 0 a.length 0 b.length
    (Nat.zero_le _) (Nat.zero_le _)
  simpa using h

theorem Difflib.ratioQ_bounds (a b : List Char) : 0 ≤ ratioQ a b ∧ ratioQ a b ≤ 1 := by
  unfold ratioQ
  by_cases h : a.length + b.length = 0
  · rw [if_pos h]; norm_num
  · rw [if_neg h]
    have hpos : (0 : ℚ) < (a.length : ℚ) + (b.length : ℚ) := by
      have : 0 < a.length + b.length := Nat.pos_of_ne_zero h
      exact_mod_cast this
    constructor
    · positivity
    · rw [div_le_one hpos]
      have hm := matchTotal_le a b
      have : (2 * matchTotal a b : ℚ) ≤ ((a.length + b.length : Nat) : ℚ) := by
        exact_mod_cast (by omega : 2 * matchTotal a b ≤ a.length + b.length)
      calc (2 * matchTotal a b : ℚ) ≤ ((a.length + b.length : Nat) : ℚ) := this
        _ = (a.length : ℚ) + (b.length : ℚ) := by push_cast; ring

/-! ## The line deduplicator -/

theorem CleanTranscript.dedupStep_eval (τ : ℚ) (kept : List (List Char)) (prev line : List Char)
    (hk : kept.getLast? = some prev) (hm : containsSeq CleanTranscript.turnMarker line = false) :
    CleanTranscript.dedupStep τ kept line =
      if τ ≤ Difflib.ratioQ (pyStrip prev) (pyStrip line) then kept else kept ++ [line] := by
  unfold CleanTranscript.dedupStep
  rw [hk, hm]
  simp

theorem ratioQ_fox :
    Difflib.ratioQ (pyStrip "the quick fox".data) (pyStrip "the quick fox.".data) = 26 / 27 := by
  have hm13 : Difflib.matchTotal (pyStrip "the quick fox".data) (pyStrip "the quick fox.".data) =
      13 := by decide
  have hl1 : (pyStrip "the quick fox".data).length = 13 := by decide
  have hl2 : (pyStrip "the quick fox.".data).length = 14 := by decide
  simp only [Difflib.ratioQ, hm13, hl1, hl2]
  norm_num

/-- C3: the Line Deduplicator keeps the first line unconditionally; each
subsequent line without a Turn Marker is compared only against the most
recently kept line (the accumulator's last element) and is dropped
exactly when `ratio ≥ τ`, otherwise appended, making it the new
comparison baseline; the ratio (twice the matched total over the combined
trimmed lengths) lies in `[0, 1]`; and the claim's example is dropped at
`τ = 0.8` and kept at `τ = 0.99`. -/
theorem C3_dedup (τ : ℚ) (hτ : 0 < τ ∧ τ ≤ 1) :
    (∀ line, CleanTranscript.dedupStep τ [] line = [line]) ∧
    (∀ kept prev line, kept.getLast? = some prev →
      containsSeq CleanTranscript.turnMarker line = false →
      CleanTranscript.dedupStep τ kept line =
        if τ ≤ Difflib.ratioQ (pyStrip prev) (pyStrip line) then kept else kept ++ [line]) ∧
    (∀ a b : List Char, 0 ≤ Difflib.ratioQ a b ∧ Difflib.ratioQ a b ≤ 1) ∧
    CleanTranscript.remove_line_stuttering (4 / 5) "the quick fox\nthe quick fox.".data =
      "the quick fox".data ∧
    CleanTranscript.remove_line_stuttering (99 / 100) "the quick fox\nthe quick fox.".data =
      "the quick fox\nthe quick fox.".data := by
  have hsplit : pySplitlines "the quick fox\nthe quick fox.".data =
      ["the quick fox".data, "the quick fox.".data] := by decide
  have hmk : containsSeq CleanTranscript.turnMarker "the quick fox.".data = false := by decide
  have hlast : (["the quick fox".data] : List (List Char)).getLast? =
      some "the quick fox".data := rfl
  refine ⟨fun line => rfl,
    fun kept prev line hk hm => CleanTranscript.dedupStep_eval τ kept prev line hk hm,
    Difflib.ratioQ_bounds, ?_, ?_⟩
  · have h2 : CleanTranscript.dedupStep (4 / 5) ["the quick fox".data]
        "the quick fox.".data = ["the quick fox".data] := by
      rw [CleanTranscript.dedupStep_eval (4 / 5) _ "the quick fox".data _ hlast hmk, ratioQ_fox,
        if_pos (by norm_num)]
    unfold CleanTranscript.remove_line_stuttering
    rw [hsplit]
    simp only [List.foldl_cons, List.foldl_nil]
    rw [show CleanTranscript.dedupStep (4 / 5) [] "the quick fox".data =
      ["the quick fox".data] from rfl, h2]
    decide
  · have h2 : CleanTranscript.dedupStep (99 / 100) ["the quick fox".data]
        "the quick fox.".data = ["the quick fox".data, "the quick fox.".data] := by
      rw [CleanTranscript.dedupStep_eval (99 / 100) _ "the quick fox".data _ hlast hmk,
        ratioQ_fox, if_neg (by norm_num)]
      rfl
    unfold CleanTranscript.remove_line_stuttering
    rw [hsplit]
    simp only [List.foldl_cons, List.foldl_nil]
    rw [show CleanTranscript.dedupStep (99 / 100) [] "the quick fox".data =
      ["the quick fox".data] from rfl, h2]
    decide

/-- C3 witness: the deduplicator at the concrete default threshold. -/
theorem C3_witness :
    CleanTranscript.remove_line_stuttering (4 / 5) "the quick fox\nthe quick fox.".data =
      "the quick fox".data :=
  (C3_dedup (4 / 5) ⟨by norm_num, by norm_num⟩).2.2.2.1

/-! ## Identity of the normalizer on already-clean text -/

theorem CleanTranscript.tagAux_none_id {s : List Char} (h : ∀ c ∈ s, c ≠ '<') :
    CleanTranscript.tagAux none s = s := by
  induction s with
  | nil => rfl
  | cons c rest ih =>
    simp only [CleanTranscript.tagAux]
    rw [if_neg (h c (by simp))]
    rw [ih fun x hx => h x (by simp [hx])]

theorem CleanTranscript.entAux_none_id {s : List Char} (h : ∀ c ∈ s, c ≠ '&') :
    CleanTranscript.entAux none s = s := by
  induction s with
  | nil => rfl
  | cons c rest ih =>
    simp only [CleanTranscript.entAux]
    rw [if_neg (h c (by simp))]
    rw [ih fun x hx => h x (by simp [hx])]

theorem lstripL_id {s : List Char} (h : ∀ c, s.head? = some c → isSpaceChar c = false) :
    lstripL s = s := by
  cases s with
  | nil => rfl
  | cons c rest =>
    unfold lstripL
    rw [List.dropWhile_cons, h c rfl]
    simp

theorem rstripL_id {s : List Char} (h : ∀ c, s.getLast? = some c → isSpaceChar c = false) :
    rstripL s = s := by
  unfold rstripL
  rw [lstripL_id, List.reverse_reverse]
  intro c hc
  exact h c (by rwa [List.head?_reverse] at hc)

theorem pyStrip_id {s : List Char} (hh : ∀ c, s.head? = some c → isSpaceChar c = false)
    (hl : ∀ c, s.getLast? = some c → isSpaceChar c = false) : pyStrip s = s := by
  unfold pyStrip
  rw [rstripL_id hl, lstripL_id hh]

theorem CleanTranscript.collapseAux_true_cancel {s : List Char}
    (h : ∀ c, s.head? = some c → isSpaceChar c = false) :
    CleanTranscript.collapseAux true s = CleanTranscript.collapseAux false s := by
  cases s with
  | nil => rfl
  | cons c rest =>
    simp only [CleanTranscript.collapseAux]
    rw [h c rfl]
    simp

theorem CleanTranscript.collapseAux_id {s : List Char}
    (h1 : ∀ c ∈ s, isSpaceChar c = true → c = ' ')
    (h2 : containsSeq "  ".data s = false) :
    CleanTranscript.collapseAux false s = s := by
  induction s with
  | nil => rfl
  | cons c rest ih =>
    have h2r : containsSeq "  ".data rest = false := by
      have h3 := h2
      unfold containsSeq at h3
      exact (Bool.or_eq_false_iff.mp h3).2
    have ihr := ih (fun x hx hsx => h1 x (by simp [hx]) hsx) h2r
    by_cases hc : isSpaceChar c = true
    · have hsp2 : c = ' ' := h1 c (by simp) hc
      subst hsp2
      have hrh : ∀ d, rest.head? = some d → isSpaceChar d = false := by
        intro d hd
        cases rest with
        | nil => simp at hd
        | cons e t =>
          have he : e = d := by simpa using hd
          subst he
          by_contra hne
          have hd2 : isSpaceChar e = true := by
            cases hdv : isSpaceChar e
            · exact absurd hdv hne
            · rfl
          have hds : e = ' ' := h1 e (by simp) hd2
          subst hds
          have hcontra : containsSeq "  ".data (' ' :: ' ' :: t) = true := by
            unfold containsSeq
            simp [List.isPrefixOf]
          rw [hcontra] at h2
          exact absurd h2 (by simp)
      have hstep : CleanTranscript.collapseAux false (' ' :: rest) =
          ' ' :: CleanTranscript.collapseAux true rest := by
        simp only [CleanTranscript.collapseAux, hc]
        simp
      rw [hstep, CleanTranscript.collapseAux_true_cancel hrh, ihr]
    · have hstep : CleanTranscript.collapseAux false (c :: rest) =
          c :: CleanTranscript.collapseAux false rest := by
        simp only [CleanTranscript.collapseAux]
        rw [if_neg (by simpa using hc)]
      rw [hstep, ihr]

theorem CleanTranscript.speakerSub_id {s : List Char}
    (h : CleanTranscript.speakerCutLen s = none) : CleanTranscript.speakerSub s = s := by
  unfold CleanTranscript.speakerSub
  rw [h]

/-- C7 counterexample: `a &quot; b` satisfies the claim's cleanliness
conditions — no angle-bracket tags (no `<` at all), only single internal
plain spaces, no leading or trailing whitespace — yet `clean_text`
changes it (the entity becomes a space). -/
theorem C7_counterexample :
    (∀ c ∈ "a &quot; b".data, c ≠ '<') ∧
    (∀ c ∈ "a &quot; b".data, isSpaceChar c = true → c = ' ') ∧
    containsSeq "  ".data "a &quot; b".data = false ∧
    pyStrip "a &quot; b".data = "a &quot; b".data ∧
    CleanTranscript.clean_text "a &quot; b".data ≠ "a &quot; b".data := by
  refine ⟨by decide, by decide, by decide, by decide, by decide⟩

/-- C7 amended: the Text Normalizer is the identity on clean input once
"clean" additionally excludes HTML-entity tokens (no `&`) and the
speaker-label-before-bracketed-timestamp lead: for strings with no `<`,
no `&`, no anchored speaker-timestamp match, all whitespace being single
internal plain spaces, and no leading or trailing whitespace,
`clean_text` returns its input unchanged. -/
theorem C7_amended (s : List Char)
    (hlt : ∀ c ∈ s, c ≠ '<') (hamp : ∀ c ∈ s, c ≠ '&')
    (hspk : CleanTranscript.speakerCutLen s = none)
    (hsp : ∀ c ∈ s, isSpaceChar c = true → c = ' ')
    (hdd : containsSeq "  ".data s = false)
    (hhead : ∀ c, s.head? = some c → isSpaceChar c = false)
    (hlast : ∀ c, s.getLast? = some c → isSpaceChar c = false) :
    CleanTranscript.clean_text s = s := by
  unfold CleanTranscript.clean_text
  rw [show CleanTranscript.tagSub s = CleanTranscript.tagAux none s from rfl,
    CleanTranscript.tagAux_none_id hlt,
    CleanTranscript.speakerSub_id hspk,
    lstripL_id hhead,
    show CleanTranscript.collapseWs s = CleanTranscript.collapseAux false s from rfl,
    CleanTranscript.collapseAux_id hsp hdd,
    show CleanTranscript.entSub s = CleanTranscript.entAux none s from rfl,
    CleanTranscript.entAux_none_id hamp,
    pyStrip_id hhead hlast]

/-- C7 witness: the amended identity at a concrete clean string. -/
theorem C7_witness : CleanTranscript.clean_text "Hi there".data = "Hi there".data :=
  C7_amended "Hi there".data (by decide) (by decide) (by decide) (by decide) (by decide)
    (by decide) (by decide)

/-! ## Character-class facts -/

theorem word_not_space {c : Char} (h : isWordChar c = true) : isSpaceChar c = false := by
  have hp := of_decide_eq_true h
  apply decide_eq_false
  omega

theorem ciCharEq_word {a b : Char} (h : ciCharEq a b = true) (hb : isWordChar b = true) :
    isWordChar a = true := by
  have hp := of_decide_eq_true h
  have hbp := of_decide_eq_true hb
  apply decide_eq_true
  rcases hp with rfl | h2 | h3
  · exact hbp
  · omega
  · omega

theorem ciEqL_len : ∀ {v w : List Char}, ciEqL v w = true → v.length = w.length := by
  intro v
  induction v with
  | nil => intro w h; cases w with
    | nil => rfl
    | cons b bs => simp [ciEqL] at h
  | cons a as ih =>
    intro w h
    cases w with
    | nil => simp [ciEqL] at h
    | cons b bs =>
      simp only [ciEqL, Bool.and_eq_true] at h
      simp [ih h.2]

theorem ciEqL_word : ∀ {v w : List Char}, ciEqL v w = true →
    (∀ c ∈ w, isWordChar c = true) → ∀ c ∈ v, isWordChar c = true := by
  intro v
  induction v with
  | nil => intro w _ _ c hc; simp at hc
  | cons a as ih =>
    intro w h hw c hc
    cases w with
    | nil => simp [ciEqL] at h
    | cons b bs =>
      simp only [ciEqL, Bool.and_eq_true] at h
      rcases List.mem_cons.mp hc with rfl | hc2
      · exact ciCharEq_word h.1 (hw b (by simp))
      · exact ih h.2 (fun x hx => hw x (by simp [hx])) c hc2

/-! ## Facts about the pair-stutter matcher -/

theorem CleanTranscript.pairMatch_some_facts {s w after : List Char}
    (h : pairMatch s = some (w, after)) :
    1 ≤ w.length ∧ after.length + 2 * w.length + 1 ≤ s.length ∧
      w = s.takeWhile isWordChar := by
  simp only [CleanTranscript.pairMatch] at h
  split at h
  · exact absurd h (by simp)
  · rename_i hcond
    split at h
    · rename_i hmat
      simp only [Option.some.injEq, Prod.mk.injEq] at h
      obtain ⟨hw2, ha⟩ := h
      subst hw2
      subst ha
      rw [Bool.and_eq_true] at hmat
      have hvlen := ciEqL_len hmat.1
      have hwne : (s.takeWhile isWordChar).length ≠ 0 := by
        intro h0
        exact hcond (by rw [List.isEmpty_iff_length_eq_zero.mpr h0, Bool.true_or])
      have hspne : ((s.dropWhile isWordChar).takeWhile isSpaceChar).length ≠ 0 := by
        intro h0
        exact hcond (by rw [List.isEmpty_iff_length_eq_zero.mpr h0, Bool.or_true])
      have hsplit1 : (s.takeWhile isWordChar).length + (s.dropWhile isWordChar).length =
          s.length := by rw [← List.length_append, List.takeWhile_append_dropWhile]
      have hsplit2 : ((s.dropWhile isWordChar).takeWhile isSpaceChar).length +
          ((s.dropWhile isWordChar).dropWhile isSpaceChar).length =
          (s.dropWhile isWordChar).length := by
        rw [← List.length_append, List.takeWhile_append_dropWhile]
      have hsplit3 : (((s.dropWhile isWordChar).dropWhile isSpaceChar).take
            (s.takeWhile isWordChar).length).length +
          (((s.dropWhile isWordChar).dropWhile isSpaceChar).drop
            (s.takeWhile isWordChar).length).length =
          ((s.dropWhile isWordChar).dropWhile isSpaceChar).length := by
        rw [← List.length_append, List.take_append_drop]
      exact ⟨by omega, by omega, rfl⟩
    · exact absurd h (by simp)

theorem CleanTranscript.pairSubF_length_le : ∀ (fuel : Nat) (pw : Bool) (s : List Char),
    (pairSubF fuel pw s).length ≤ s.length := by
  intro fuel
  induction fuel with
  | zero => intro pw s; exact Nat.le_refl _
  | succ fuel ih =>
    intro pw s
    cases s with
    | nil => simp [pairSubF]
    | cons c rest =>
      simp only [pairSubF]
      by_cases hb : (!pw && isWordChar c) = true
      · rw [if_pos hb]
        cases hm : pairMatch (c :: rest) with
        | none =>
          simp only [List.length_cons]
          have := ih (isWordChar c) rest
          omega
        | some pr =>
          obtain ⟨w, after⟩ := pr
          obtain ⟨hf1, hf2, hf3⟩ := pairMatch_some_facts hm
          simp only [List.length_append, List.length_cons]
          have := ih true after
          simp only [List.length_cons] at hf2
          omega
      · rw [if_neg hb]
        simp only [List.length_cons]
        have := ih (isWordChar c) rest
        omega

theorem CleanTranscript.pairSubF_eq_or_lt : ∀ (fuel : Nat) (pw : Bool) (s : List Char),
    pairSubF fuel pw s = s ∨ (pairSubF fuel pw s).length < s.length := by
  intro fuel
  induction fuel with
  | zero => intro pw s; exact Or.inl rfl
  | succ fuel ih =>
    intro pw s
    cases s with
    | nil => exact Or.inl rfl
    | cons c rest =>
      simp only [pairSubF]
      by_cases hb : (!pw && isWordChar c) = true
      · rw [if_pos hb]
        cases hm : pairMatch (c :: rest) with
        | none =>
          rcases ih (isWordChar c) rest with heq | hlt
          · exact Or.inl (by rw [heq])
          · exact Or.inr (by simp only [List.length_cons]; omega)
        | some pr =>
          obtain ⟨w, after⟩ := pr
          obtain ⟨hf1, hf2, hf3⟩ := pairMatch_some_facts hm
          refine Or.inr ?_
          have h1 := pairSubF_length_le fuel true after
          simp only [List.length_append, List.length_cons]
          simp only [List.length_cons] at hf2
          omega
      · rw [if_neg hb]
        rcases ih (isWordChar c) rest with heq | hlt
        · exact Or.inl (by rw [heq])
        · exact Or.inr (by simp only [List.length_cons]; omega)

theorem CleanTranscript.pairFixAux_isFixed : ∀ (fuel : Nat) (s : List Char), s.length < fuel →
    pairSubL (pairFixAux fuel s) = pairFixAux fuel s := by
  intro fuel
  induction fuel with
  | zero => intro s h; omega
  | succ fuel ih =>
    intro s h
    simp only [pairFixAux]
    by_cases he : pairSubL s = s
    · rw [if_pos he]
      exact he
    · rw [if_neg he]
      apply ih
      rcases pairSubF_eq_or_lt s.length false s with heq | hlt
      · exact absurd heq he
      · exact Nat.lt_of_lt_of_le hlt (by omega)

/-! ## The triple pattern never fires where the pair pattern cannot -/

theorem CleanTranscript.tripleTry_short {t : List Char} {cs : List (List Char)}
    (h : cs.length ≤ 1) : CleanTranscript.tripleTry t cs = none := by
  unfold CleanTranscript.tripleTry
  cases hc : cs.length with
  | zero => rfl
  | succ n =>
    have hn : n = 0 := by omega
    subst hn
    simp only [CleanTranscript.tripleTryF]
    rw [if_pos (by omega)]

theorem CleanTranscript.repChunksF_nil_of_head {fuel : Nat} {w s : List Char}
    (h : ∀ e, s.head? = some e → isSpaceChar e = false) :
    CleanTranscript.repChunksF fuel w s = [] := by
  match fuel, s with
  | 0, _ => rfl
  | _ + 1, [] => rfl
  | fuel + 1, c :: t2 =>
    simp only [CleanTranscript.repChunksF]
    rw [h c rfl]
    simp

theorem isWordHeadB_reverse_of_all {v : List Char} (hne : v.length ≠ 0)
    (h : ∀ c ∈ v, isWordChar c = true) : isWordHeadB v.reverse = true := by
  cases hr : v.reverse with
  | nil =>
    have : v = [] := by simpa using congrArg List.reverse hr
    subst this
    simp at hne
  | cons d ds =>
    have hd : d ∈ v := by
      have h2 : d ∈ v.reverse := by rw [hr]; simp
      simpa using h2
    simpa [isWordHeadB] using h d hd

theorem CleanTranscript.tripleMatch_none_of_pair {s : List Char}
    (h : CleanTranscript.pairMatch s = none) :
    CleanTranscript.tripleMatch s = none := by
  have hWword : ∀ c ∈ s.takeWhile isWordChar, isWordChar c = true :=
    fun c hc => List.mem_takeWhile_imp hc
  simp only [CleanTranscript.pairMatch] at h
  simp only [CleanTranscript.tripleMatch]
  by_cases hwE : (s.takeWhile isWordChar).isEmpty = true
  · rw [if_pos hwE]
  · rw [if_neg hwE]
    suffices hchunks : (CleanTranscript.repChunks (s.takeWhile isWordChar)
        (s.dropWhile isWordChar)).length ≤ 1 by
      rw [CleanTranscript.tripleTry_short hchunks]
    by_cases hspE : ((s.dropWhile isWordChar).takeWhile isSpaceChar).isEmpty = true
    · have hh : ∀ e, (s.dropWhile isWordChar).head? = some e → isSpaceChar e = false := by
        intro e he
        cases ht : s.dropWhile isWordChar with
        | nil => rw [ht] at he; simp at he
        | cons c t2 =>
          rw [ht] at he hspE
          have hec : c = e := by simpa using he
          subst hec
          rw [List.takeWhile_cons] at hspE
          by_cases hsc : isSpaceChar c = true
          · rw [if_pos hsc] at hspE; simp at hspE
          · simpa using hsc
      unfold CleanTranscript.repChunks
      rw [CleanTranscript.repChunksF_nil_of_head hh]
      simp
    · rw [if_neg (by simp [hwE, hspE])] at h
      have hcondF : (ciEqL (((s.dropWhile isWordChar).dropWhile isSpaceChar).take
            (s.takeWhile isWordChar).length) (s.takeWhile isWordChar) &&
          (isWordHeadB (((s.dropWhile isWordChar).dropWhile isSpaceChar).take
              (s.takeWhile isWordChar).length).reverse !=
            isWordHeadB (((s.dropWhile isWordChar).dropWhile isSpaceChar).drop
              (s.takeWhile isWordChar).length))) = false := by
        by_cases hcc : (ciEqL (((s.dropWhile isWordChar).dropWhile isSpaceChar).take
              (s.takeWhile isWordChar).length) (s.takeWhile isWordChar) &&
            (isWordHeadB (((s.dropWhile isWordChar).dropWhile isSpaceChar).take
                (s.takeWhile isWordChar).length).reverse !=
              isWordHeadB (((s.dropWhile isWordChar).dropWhile isSpaceChar).drop
                (s.takeWhile isWordChar).length))) = true
        · rw [if_pos hcc] at h; exact absurd h (by simp)
        · simpa using hcc
      obtain ⟨c, t2, ht⟩ : ∃ c t2, s.dropWhile isWordChar = c :: t2 := by
        cases ht : s.dropWhile isWordChar with
        | nil => rw [ht] at hspE; simp at hspE
        | cons c t2 => exact ⟨c, t2, rfl⟩
      have hsc : isSpaceChar c = true := by
        rw [ht] at hspE
        rw [List.takeWhile_cons] at hspE
        by_cases hsc2 : isSpaceChar c = true
        · exact hsc2
        · rw [if_neg (by simpa using hsc2)] at hspE; simp at hspE
      have hdw : (s.dropWhile isWordChar).dropWhile isSpaceChar =
          t2.dropWhile isSpaceChar := by
        rw [ht, List.dropWhile_cons, hsc]
        simp
      rw [ht]
      show (CleanTranscript.repChunksF (c :: t2).length (s.takeWhile isWordChar)
        (c :: t2)).length ≤ 1
      simp only [List.length_cons, CleanTranscript.repChunksF]
      rw [hsc]
      simp only [if_true, reduceIte]
      rw [hdw] at hcondF
      rcases Bool.and_eq_false_iff.mp hcondF with hci | hbnd
      · rw [hci]
        simp
      · by_cases hci : ciEqL ((t2.dropWhile isSpaceChar).take
            (s.takeWhile isWordChar).length) (s.takeWhile isWordChar) = true
        · rw [hci]
          simp only [if_true, reduceIte]
          have hbeq : isWordHeadB ((t2.dropWhile isSpaceChar).take
                (s.takeWhile isWordChar).length).reverse =
              isWordHeadB ((t2.dropWhile isSpaceChar).drop
                (s.takeWhile isWordChar).length) := by simpa using hbnd
          have hvlen := ciEqL_len hci
          have hwne : (s.takeWhile isWordChar).length ≠ 0 := by
            intro h0
            exact hwE (List.isEmpty_iff_length_eq_zero.mpr h0)
          have hvword : ∀ x ∈ (t2.dropWhile isSpaceChar).take
              (s.takeWhile isWordChar).length, isWordChar x = true :=
            ciEqL_word hci hWword
          have hrevTrue : isWordHeadB ((t2.dropWhile isSpaceChar).take
              (s.takeWhile isWordChar).length).reverse = true :=
            isWordHeadB_reverse_of_all (by omega) hvword
          have hdropWord : isWordHeadB ((t2.dropWhile isSpaceChar).drop
              (s.takeWhile isWordChar).length) = true := by
            rw [← hbeq, hrevTrue]
          have hrecNil : CleanTranscript.repChunksF t2.length (s.takeWhile isWordChar)
              ((t2.dropWhile isSpaceChar).drop (s.takeWhile isWordChar).length) = [] := by
            apply CleanTranscript.repChunksF_nil_of_head
            intro e he
            cases hu : (t2.dropWhile isSpaceChar).drop (s.takeWhile isWordChar).length with
            | nil => rw [hu] at he; simp at he
            | cons e2 us =>
              rw [hu] at he hdropWord
              have hee : e2 = e := by simpa using he
              subst hee
              exact word_not_space (by simpa [isWordHeadB] using hdropWord)
          rw [hrecNil]
          simp
        · rw [show (ciEqL ((t2.dropWhile isSpaceChar).take
              (s.takeWhile isWordChar).length) (s.takeWhile isWordChar)) = false by
              simpa using hci]
          simp


/-! ## Idempotence of the word-stutter collapser -/

theorem CleanTranscript.tripleSubF_id_of_pairSubF_id :
    ∀ (fuel : Nat) (pw : Bool) (s : List Char), s.length ≤ fuel →
      CleanTranscript.pairSubF fuel pw s = s → CleanTranscript.tripleSubF fuel pw s = s := by
  intro fuel
  induction fuel with
  | zero => intro pw s _ _; rfl
  | succ fuel ih =>
    intro pw s hlen hpair
    cases s with
    | nil => rfl
    | cons c rest =>
      simp only [CleanTranscript.pairSubF] at hpair
      by_cases hb : (!pw && isWordChar c) = true
      · rw [if_pos hb] at hpair
        cases hm : CleanTranscript.pairMatch (c :: rest) with
        | some pr =>
          obtain ⟨w, after⟩ := pr
          simp only [hm] at hpair
          obtain ⟨hf1, hf2, hf3⟩ := CleanTranscript.pairMatch_some_facts hm
          have hlt : (w ++ CleanTranscript.pairSubF fuel true after).length <
              (c :: rest).length := by
            have hrec := CleanTranscript.pairSubF_length_le fuel true after
            simp only [List.length_append, List.length_cons]
            simp only [List.length_cons] at hf2
            omega
          rw [hpair] at hlt
          exact absurd hlt (by omega)
        | none =>
          simp only [hm] at hpair
          have htl : CleanTranscript.pairSubF fuel (isWordChar c) rest = rest := by
            injection hpair
          simp only [List.length_cons] at hlen
          simp only [CleanTranscript.tripleSubF, if_pos hb,
            CleanTranscript.tripleMatch_none_of_pair hm]
          rw [ih (isWordChar c) rest (by omega) htl]
      · rw [if_neg hb] at hpair
        have htl : CleanTranscript.pairSubF fuel (isWordChar c) rest = rest := by
          injection hpair
        simp only [List.length_cons] at hlen
        simp only [CleanTranscript.tripleSubF, if_neg hb]
        rw [ih (isWordChar c) rest (by omega) htl]

theorem CleanTranscript.pairFixAux_of_fixed {s : List Char}
    (h : CleanTranscript.pairSubL s = s) (fuel : Nat) :
    CleanTranscript.pairFixAux (fuel + 1) s = s := by
  simp only [CleanTranscript.pairFixAux]
  rw [if_pos h]

/-- C4: the Word Stutter Collapser is idempotent.  The pair-collapsing
fixed-point loop produces a string on which one more pair pass is the
identity; on such a string the triple pattern cannot match either (any
triple repetition contains a pair repetition), so the collapser's output
passes through a second application unchanged. -/
theorem C4_idempotent (s : List Char) :
    CleanTranscript.remove_word_stuttering (CleanTranscript.remove_word_stuttering s) =
      CleanTranscript.remove_word_stuttering s := by
  have hfix : CleanTranscript.pairSubL (CleanTranscript.pairFixAux (s.length + 1) s) =
      CleanTranscript.pairFixAux (s.length + 1) s :=
    CleanTranscript.pairFixAux_isFixed (s.length + 1) s (by omega)
  have htrip : CleanTranscript.tripleSubL (CleanTranscript.pairFixAux (s.length + 1) s) =
      CleanTranscript.pairFixAux (s.length + 1) s :=
    CleanTranscript.tripleSubF_id_of_pairSubF_id
      (CleanTranscript.pairFixAux (s.length + 1) s).length false
      (CleanTranscript.pairFixAux (s.length + 1) s) (Nat.le_refl _) hfix
  unfold CleanTranscript.remove_word_stuttering
  rw [htrip, CleanTranscript.pairFixAux_of_fixed hfix, htrip]

/-! ## Occurrence preservation utilities -/

theorem occursIn_cons {m l : List Char} (c : Char) (h : occursIn m l) : occursIn m (c :: l) := by
  obtain ⟨u, v, rfl⟩ := h
  exact ⟨c :: u, v, rfl⟩

theorem occursIn_append_left {m l : List Char} (xs : List Char) (h : occursIn m l) :
    occursIn m (xs ++ l) := by
  obtain ⟨u, v, rfl⟩ := h
  exact ⟨xs ++ u, v, by simp⟩

theorem occursIn_self (m v : List Char) : occursIn m (m ++ v) := ⟨[], v, rfl⟩

/-- An occurrence of a pattern beginning with `h0` inside `pre ++ rest`
lies inside `rest` whenever `pre` does not contain `h0`. -/
theorem occursIn_right_of_head {h0 : Char} {m2 : List Char} :
    ∀ (pre : List Char) {rest : List Char}, (∀ c ∈ pre, c ≠ h0) →
      occursIn (h0 :: m2) (pre ++ rest) → occursIn (h0 :: m2) rest := by
  intro pre
  induction pre with
  | nil => intro rest _ h; exact h
  | cons c pre2 ih =>
    intro rest hpre h
    obtain ⟨u, v, heq⟩ := h
    cases u with
    | nil =>
      simp only [List.nil_append, List.cons_append, List.cons.injEq] at heq
      exact absurd heq.1 (hpre c (by simp))
    | cons d u2 =>
      simp only [List.cons_append, List.cons.injEq] at heq
      exact ih (fun x hx => hpre x (by simp [hx])) ⟨u2, v, by simpa using heq.2⟩

theorem occursIn_reverse {m s : List Char} (h : occursIn m s) :
    occursIn m.reverse s.reverse := by
  obtain ⟨u, v, rfl⟩ := h
  exact ⟨v.reverse, u.reverse, by simp⟩

theorem takeWhile_append_all {p : Char → Bool} {ws : List Char} (h : ∀ c ∈ ws, p c = true)
    (r : List Char) : (ws ++ r).takeWhile p = ws ++ r.takeWhile p := by
  induction ws with
  | nil => simp
  | cons c ws2 ih =>
    simp only [List.cons_append, List.takeWhile_cons, h c (by simp)]
    rw [ih (fun x hx => h x (by simp [hx]))]
    simp

theorem dropWhile_append_all {p : Char → Bool} {ws : List Char} (h : ∀ c ∈ ws, p c = true)
    (r : List Char) : (ws ++ r).dropWhile p = r.dropWhile p := by
  induction ws with
  | nil => simp
  | cons c ws2 ih =>
    simp only [List.cons_append, List.dropWhile_cons, h c (by simp)]
    rw [ih (fun x hx => h x (by simp [hx]))]
    simp

/-! ## The collapser and entity scanner preserve marker occurrences -/

theorem CleanTranscript.collapseAux_nospace_append {m0 : List Char}
    (h : ∀ c ∈ m0, isSpaceChar c = false) (v : List Char) :
    CleanTranscript.collapseAux false (m0 ++ v) = m0 ++ CleanTranscript.collapseAux false v := by
  induction m0 with
  | nil => simp
  | cons c m2 ih =>
    simp only [List.cons_append, CleanTranscript.collapseAux, h c (by simp), List.append_eq]
    rw [ih (fun x hx => h x (by simp [hx]))]
    simp

theorem CleanTranscript.collapseAux_marker {m : List Char}
    (hm : ∀ c ∈ m, isSpaceChar c = false) (hne : m ≠ []) :
    ∀ (fl : Bool) (s : List Char), occursIn m s →
      occursIn m (CleanTranscript.collapseAux fl s) := by
  intro fl s h
  obtain ⟨u, v, rfl⟩ := h
  induction u generalizing fl with
  | nil =>
    simp only [List.nil_append]
    cases m with
    | nil => exact absurd rfl hne
    | cons c m2 =>
      have hcs : isSpaceChar c = false := hm c (by simp)
      simp only [List.cons_append, CleanTranscript.collapseAux, hcs, List.append_eq]
      simp only [Bool.false_eq_true, if_false]
      rw [CleanTranscript.collapseAux_nospace_append (fun x hx => hm x (by simp [hx])) v]
      exact ⟨[], CleanTranscript.collapseAux false v, by simp⟩
  | cons c u2 ih =>
    simp only [List.cons_append, CleanTranscript.collapseAux]
    by_cases hc : isSpaceChar c = true
    · rw [hc]
      by_cases hfl : fl
      · subst hfl
        simp only [if_true, reduceIte]
        exact ih true
      · rw [show fl = false by simpa using hfl]
        simp only [Bool.false_eq_true, if_false, reduceIte]
        exact occursIn_cons ' ' (ih true)
    · rw [show isSpaceChar c = false by simpa using hc]
      simp only [Bool.false_eq_true, if_false]
      exact occursIn_cons c (ih false)

theorem CleanTranscript.entAux_noamp_append {m0 : List Char}
    (h : ∀ c ∈ m0, c ≠ '&') (v : List Char) :
    CleanTranscript.entAux none (m0 ++ v) = m0 ++ CleanTranscript.entAux none v := by
  induction m0 with
  | nil => simp
  | cons c m2 ih =>
    simp only [List.cons_append, CleanTranscript.entAux, List.append_eq]
    rw [if_neg (h c (by simp))]
    rw [ih (fun x hx => h x (by simp [hx]))]

theorem CleanTranscript.entAux_marker {m2 : List Char}
    (hm : ∀ c ∈ '[' :: m2, c ≠ '&') :
    ∀ (st : Option (List Char)) (s : List Char), occursIn ('[' :: m2) s →
      occursIn ('[' :: m2) (CleanTranscript.entAux st s) := by
  intro st s h
  obtain ⟨u, v, rfl⟩ := h
  induction u generalizing st with
  | nil =>
    simp only [List.nil_append]
    cases st with
    | none =>
      simp only [List.cons_append, CleanTranscript.entAux, List.append_eq]
      rw [if_neg (by decide)]
      rw [CleanTranscript.entAux_noamp_append (fun x hx => hm x (by simp [hx, List.mem_cons])) v]
      exact ⟨[], CleanTranscript.entAux none v, by simp⟩
    | some buf =>
      simp only [List.cons_append, CleanTranscript.entAux, List.append_eq]
      rw [if_neg (by decide), if_neg (by decide), if_neg (by decide)]
      rw [CleanTranscript.entAux_noamp_append (fun x hx => hm x (by simp [hx, List.mem_cons])) v]
      exact ⟨'&' :: buf.reverse, CleanTranscript.entAux none v, by simp⟩
  | cons c u2 ih =>
    cases st with
    | none =>
      simp only [List.cons_append, CleanTranscript.entAux]
      by_cases hc : c = '&'
      · rw [if_pos hc]
        exact ih (some [])
      · rw [if_neg hc]
        exact occursIn_cons c (ih none)
    | some buf =>
      simp only [List.cons_append, CleanTranscript.entAux]
      by_cases hc1 : c = ';'
      · rw [if_pos hc1]
        by_cases hb : buf.isEmpty
        · rw [if_pos hb]
          exact occursIn_cons '&' (occursIn_cons ';' (ih none))
        · rw [if_neg hb]
          exact occursIn_cons ' ' (ih none)
      · rw [if_neg hc1]
        by_cases hc2 : isAlphaChar c = true
        · rw [if_pos hc2]
          exact ih (some (c :: buf))
        · rw [if_neg (by simpa using hc2)]
          by_cases hc3 : c = '&'
          · rw [if_pos hc3]
            exact occursIn_cons '&' (occursIn_append_left buf.reverse (ih (some [])))
          · rw [if_neg hc3]
            exact occursIn_cons '&'
              (occursIn_append_left buf.reverse (occursIn_cons c (ih none)))


/-! ## Strip and speaker stages preserve marker occurrences -/

theorem take_takeWhile (p : Char → Bool) : ∀ s : List Char,
    s.take (s.takeWhile p).length = s.takeWhile p := by
  intro s
  induction s with
  | nil => rfl
  | cons c rest ih =>
    rw [List.takeWhile_cons]
    by_cases hp : p c = true
    · rw [if_pos hp]
      simp only [List.length_cons, List.take_succ_cons, ih]
    · rw [if_neg hp]
      simp

theorem CleanTranscript.speakerCut_facts {s : List Char} {k : Nat}
    (hk : CleanTranscript.speakerCutLen s = some k) :
    ∃ pre rest, s = pre ++ rest ∧ (∀ c ∈ pre, c ≠ '[') ∧
      CleanTranscript.speakerSub s = rest := by
  have hk2 := hk
  simp only [CleanTranscript.speakerCutLen] at hk2
  split at hk2
  · exact absurd hk2 (by simp)
  · rename_i hwE
    split at hk2
    · rename_i t hdrop
      split at hk2
      · exact absurd hk2 (by simp)
      · rename_i hspE
        split at hk2
        · rename_i hbr
          simp only [Option.some.injEq] at hk2
          refine ⟨s.takeWhile isWordChar ++ ':' :: t.takeWhile isSpaceChar,
            t.dropWhile isSpaceChar, ?_, ?_, ?_⟩
          · conv_lhs => rw [← List.take_append_drop (s.takeWhile isWordChar).length s,
              take_takeWhile, hdrop, ← List.takeWhile_append_dropWhile (p := isSpaceChar)
                (l := t)]
            simp
          · intro c hc
            rcases List.mem_append.mp hc with hw | hrest
            · have hcw := List.mem_takeWhile_imp hw
              intro hcontra
              subst hcontra
              exact absurd hcw (by decide)
            · rcases List.mem_cons.mp hrest with rfl | hsp
              · decide
              · have hcs := List.mem_takeWhile_imp hsp
                intro hcontra
                subst hcontra
                exact absurd hcs (by decide)
          · unfold CleanTranscript.speakerSub
            rw [hk]
            have hlen : (s.takeWhile isWordChar ++ ':' :: t.takeWhile isSpaceChar).length =
                k := by
              simp only [List.length_append, List.length_cons]
              omega
            have hs : s = (s.takeWhile isWordChar ++ ':' :: t.takeWhile isSpaceChar) ++
                t.dropWhile isSpaceChar := by
              conv_lhs => rw [← List.take_append_drop (s.takeWhile isWordChar).length s,
                take_takeWhile, hdrop, ← List.takeWhile_append_dropWhile (p := isSpaceChar)
                  (l := t)]
              simp
            conv_lhs => rw [hs, ← hlen]
            exact List.drop_left _ _
        · exact absurd hk2 (by simp)
    · exact absurd hk2 (by simp)

theorem CleanTranscript.speakerSub_marker {m2 s : List Char}
    (h : occursIn ('[' :: m2) s) :
    occursIn ('[' :: m2) (CleanTranscript.speakerSub s) := by
  cases hk : CleanTranscript.speakerCutLen s with
  | none =>
    unfold CleanTranscript.speakerSub
    rw [hk]
    exact h
  | some k =>
    obtain ⟨pre, rest, hs, hpre, hsub⟩ := CleanTranscript.speakerCut_facts hk
    rw [hsub]
    exact occursIn_right_of_head pre hpre (hs ▸ h)

theorem lstripL_marker {m2 s : List Char} (h : occursIn ('[' :: m2) s) :
    occursIn ('[' :: m2) (lstripL s) := by
  unfold lstripL
  apply occursIn_right_of_head (s.takeWhile isSpaceChar)
  · intro c hc
    have hcs := List.mem_takeWhile_imp hc
    intro hcontra
    subst hcontra
    exact absurd hcs (by decide)
  · rw [List.takeWhile_append_dropWhile]
    exact h

theorem pyStrip_marker {s : List Char} (h : occursIn CleanTranscript.turnMarker s) :
    occursIn CleanTranscript.turnMarker (pyStrip s) := by
  have hrev : CleanTranscript.turnMarker.reverse = ']' :: "NRUT_REKAEPS[".data := by decide
  have hrev2 : (']' :: "NRUT_REKAEPS[".data).reverse = CleanTranscript.turnMarker := by decide
  have hmk : CleanTranscript.turnMarker = '[' :: "SPEAKER_TURN]".data := by decide
  have hstep1 : occursIn CleanTranscript.turnMarker (rstripL s) := by
    have h1 := occursIn_reverse h
    rw [hrev] at h1
    have h2 : occursIn (']' :: "NRUT_REKAEPS[".data) (lstripL s.reverse) := by
      unfold lstripL
      apply occursIn_right_of_head (s.reverse.takeWhile isSpaceChar)
      · intro c hc
        have hcs := List.mem_takeWhile_imp hc
        intro hcontra
        subst hcontra
        exact absurd hcs (by decide)
      · rw [List.takeWhile_append_dropWhile]
        exact h1
    have h3 := occursIn_reverse h2
    rw [hrev2] at h3
    exact h3
  unfold pyStrip
  rw [hmk] at hstep1 ⊢
  exact lstripL_marker hstep1

/-- The Text Normalizer preserves `[SPEAKER_TURN]` in every line that
contains no `<` (an angle-bracket span could otherwise swallow the
marker). -/
theorem CleanTranscript.clean_text_marker {s : List Char} (hlt : ∀ c ∈ s, c ≠ '<')
    (h : occursIn CleanTranscript.turnMarker s) :
    occursIn CleanTranscript.turnMarker (CleanTranscript.clean_text s) := by
  have hmk : CleanTranscript.turnMarker = '[' :: "SPEAKER_TURN]".data := by decide
  unfold CleanTranscript.clean_text
  rw [show CleanTranscript.tagSub s = s from CleanTranscript.tagAux_none_id hlt]
  apply pyStrip_marker
  rw [hmk]
  apply CleanTranscript.entAux_marker (by decide)
  rw [← hmk]
  show occursIn CleanTranscript.turnMarker
    (CleanTranscript.collapseAux false (lstripL (CleanTranscript.speakerSub s)))
  rw [hmk]
  apply CleanTranscript.collapseAux_marker (by decide) (by decide)
  apply lstripL_marker
  apply CleanTranscript.speakerSub_marker
  rw [← hmk]
  exact h


/-! ## The stutter collapser preserves marker occurrences -/

theorem not_lbrack_of_ws {c : Char} (h : isSpaceChar c = true ∨ isWordChar c = true) :
    c ≠ '[' := by
  intro hc
  subst hc
  rcases h with h2 | h2 <;> exact absurd h2 (by decide)

theorem CleanTranscript.pairMatch_none_of_sp {s : List Char}
    (h : ((s.dropWhile isWordChar).takeWhile isSpaceChar).isEmpty = true) :
    CleanTranscript.pairMatch s = none := by
  simp only [CleanTranscript.pairMatch]
  rw [show ((s.takeWhile isWordChar).isEmpty ||
      ((s.dropWhile isWordChar).takeWhile isSpaceChar).isEmpty) = true by
    rw [h, Bool.or_true]]
  simp

theorem CleanTranscript.tripleMatch_none_of_head {s : List Char}
    (h : ∀ e, (s.dropWhile isWordChar).head? = some e → isSpaceChar e = false) :
    CleanTranscript.tripleMatch s = none := by
  simp only [CleanTranscript.tripleMatch]
  by_cases hw : (s.takeWhile isWordChar).isEmpty = true
  · rw [if_pos hw]
  · rw [if_neg hw]
    unfold CleanTranscript.repChunks
    rw [CleanTranscript.repChunksF_nil_of_head h]
    rw [CleanTranscript.tripleTry_short (by simp)]

theorem CleanTranscript.pairMatch_span {s w after : List Char}
    (h : CleanTranscript.pairMatch s = some (w, after)) :
    ∃ mid, s = w ++ mid ++ after ∧ (∀ c ∈ w, isWordChar c = true) ∧
      (∀ c ∈ mid, isSpaceChar c = true ∨ isWordChar c = true) := by
  simp only [CleanTranscript.pairMatch] at h
  split at h
  · exact absurd h (by simp)
  · rename_i hcond
    split at h
    · rename_i hmat
      simp only [Option.some.injEq, Prod.mk.injEq] at h
      obtain ⟨hw2, ha⟩ := h
      subst hw2
      subst ha
      rw [Bool.and_eq_true] at hmat
      refine ⟨(s.dropWhile isWordChar).takeWhile isSpaceChar ++
        ((s.dropWhile isWordChar).dropWhile isSpaceChar).take
          (s.takeWhile isWordChar).length, ?_,
        fun c hc => List.mem_takeWhile_imp hc, ?_⟩
      · have e1 : s.takeWhile isWordChar ++ s.dropWhile isWordChar = s :=
          List.takeWhile_append_dropWhile _ _
        have e2 : (s.dropWhile isWordChar).takeWhile isSpaceChar ++
            (s.dropWhile isWordChar).dropWhile isSpaceChar = s.dropWhile isWordChar :=
          List.takeWhile_append_dropWhile _ _
        have e3 : ((s.dropWhile isWordChar).dropWhile isSpaceChar).take
              (s.takeWhile isWordChar).length ++
            ((s.dropWhile isWordChar).dropWhile isSpaceChar).drop
              (s.takeWhile isWordChar).length =
            (s.dropWhile isWordChar).dropWhile isSpaceChar := List.take_append_drop _ _
        calc s = s.takeWhile isWordChar ++ s.dropWhile isWordChar := e1.symm
          _ = s.takeWhile isWordChar ++ ((s.dropWhile isWordChar).takeWhile isSpaceChar ++
              (s.dropWhile isWordChar).dropWhile isSpaceChar) :=
            congrArg (s.takeWhile isWordChar ++ ·) e2.symm
          _ = s.takeWhile isWordChar ++ ((s.dropWhile isWordChar).takeWhile isSpaceChar ++
              (((s.dropWhile isWordChar).dropWhile isSpaceChar).take
                  (s.takeWhile isWordChar).length ++
                ((s.dropWhile isWordChar).dropWhile isSpaceChar).drop
                  (s.takeWhile isWordChar).length)) := by
            exact congrArg (fun x => s.takeWhile isWordChar ++
              ((s.dropWhile isWordChar).takeWhile isSpaceChar ++ x)) e3.symm
          _ = s.takeWhile isWordChar ++ ((s.dropWhile isWordChar).takeWhile isSpaceChar ++
              ((s.dropWhile isWordChar).dropWhile isSpaceChar).take
                (s.takeWhile isWordChar).length) ++
              ((s.dropWhile isWordChar).dropWhile isSpaceChar).drop
                (s.takeWhile isWordChar).length := by
            simp [List.append_assoc]
      · intro c hc
        rcases List.mem_append.mp hc with hsp | hv
        · exact Or.inl (List.mem_takeWhile_imp hsp)
        · exact Or.inr (ciEqL_word hmat.1
            (fun x hx => List.mem_takeWhile_imp hx) c hv)
    · exact absurd h (by simp)

theorem CleanTranscript.pairSubF_word_run : ∀ (fuel : Nat) (ws v : List Char),
    (∀ c ∈ ws, isWordChar c = true) →
    ∃ fuel2 pw2, CleanTranscript.pairSubF fuel true (ws ++ v) =
      ws ++ CleanTranscript.pairSubF fuel2 pw2 v := by
  intro fuel
  induction fuel with
  | zero =>
    intro ws v _
    exact ⟨0, true, by simp [CleanTranscript.pairSubF]⟩
  | succ fuel ih =>
    intro ws v hws
    cases ws with
    | nil => exact ⟨fuel + 1, true, rfl⟩
    | cons c ws2 =>
      have hcw : isWordChar c = true := hws c (by simp)
      obtain ⟨f2, p2, heq⟩ := ih ws2 v (fun x hx => hws x (by simp [hx]))
      refine ⟨f2, p2, ?_⟩
      show c :: CleanTranscript.pairSubF fuel (isWordChar c) (ws2 ++ v) =
        c :: (ws2 ++ CleanTranscript.pairSubF f2 p2 v)
      rw [hcw, heq]

theorem CleanTranscript.pairSubF_marker_step : ∀ (fuel : Nat) (pw : Bool) (v : List Char),
    ∃ r, CleanTranscript.pairSubF fuel pw (CleanTranscript.turnMarker ++ v) =
      CleanTranscript.turnMarker ++ r := by
  intro fuel pw v
  cases fuel with
  | zero => exact ⟨v, rfl⟩
  | succ fuel =>
    have hstep1 : CleanTranscript.pairSubF (fuel + 1) pw (CleanTranscript.turnMarker ++ v) =
        '[' :: CleanTranscript.pairSubF fuel false ("SPEAKER_TURN]".data ++ v) := by
      cases pw <;> rfl
    cases fuel with
    | zero =>
      refine ⟨v, ?_⟩
      rw [hstep1]
      rfl
    | succ fuel =>
      have hstep2 : CleanTranscript.pairSubF (fuel + 1) false ("SPEAKER_TURN]".data ++ v) =
          'S' :: CleanTranscript.pairSubF fuel true ("PEAKER_TURN".data ++ (']' :: v)) := by
        rfl
      obtain ⟨f2, p2, heq⟩ := CleanTranscript.pairSubF_word_run fuel "PEAKER_TURN".data
        (']' :: v) (by decide)
      have hstep3 : ∃ r2, CleanTranscript.pairSubF f2 p2 (']' :: v) = ']' :: r2 := by
        cases f2 with
        | zero => exact ⟨v, rfl⟩
        | succ f2 => cases p2 <;> exact ⟨_, rfl⟩
      obtain ⟨r2, hr2⟩ := hstep3
      refine ⟨r2, ?_⟩
      rw [hstep1, hstep2, heq, hr2]
      rfl

theorem CleanTranscript.pairSubF_marker : ∀ (fuel : Nat) (pw : Bool) (u v : List Char),
    occursIn CleanTranscript.turnMarker
      (CleanTranscript.pairSubF fuel pw (u ++ CleanTranscript.turnMarker ++ v)) := by
  intro fuel
  induction fuel with
  | zero =>
    intro pw u v
    exact ⟨u, v, rfl⟩
  | succ fuel ih =>
    intro pw u v
    cases u with
    | nil =>
      obtain ⟨r, hr⟩ := CleanTranscript.pairSubF_marker_step (fuel + 1) pw v
      rw [List.nil_append, hr]
      exact occursIn_self _ r
    | cons c u2 =>
      show occursIn CleanTranscript.turnMarker (CleanTranscript.pairSubF (fuel + 1) pw
        (c :: (u2 ++ CleanTranscript.turnMarker ++ v)))
      simp only [CleanTranscript.pairSubF]
      split
      · split
        · rename_i w after hmat
          obtain ⟨mid, hspan, hw, hmid⟩ := CleanTranscript.pairMatch_span hmat
          have hchars : ∀ x ∈ w ++ mid, x ≠ '[' := by
            intro x hx
            rcases List.mem_append.mp hx with hx2 | hx2
            · exact not_lbrack_of_ws (Or.inr (hw x hx2))
            · exact not_lbrack_of_ws (hmid x hx2)
          have hocc : occursIn CleanTranscript.turnMarker (w ++ mid ++ after) := by
            rw [← hspan]
            exact ⟨c :: u2, v, by simp⟩
          have htm : CleanTranscript.turnMarker = '[' :: "SPEAKER_TURN]".data := rfl
          rw [htm] at hocc
          have hafter := occursIn_right_of_head (w ++ mid) hchars hocc
          rw [← htm] at hafter
          obtain ⟨u3, v3, hae⟩ := hafter
          rw [hae]
          exact occursIn_append_left w (ih true u3 v3)
        · exact occursIn_cons c (ih (isWordChar c) u2 v)
      · exact occursIn_cons c (ih (isWordChar c) u2 v)

theorem CleanTranscript.pairFixAux_marker : ∀ (fuel : Nat) (s : List Char),
    occursIn CleanTranscript.turnMarker s →
    occursIn CleanTranscript.turnMarker (CleanTranscript.pairFixAux fuel s) := by
  intro fuel
  induction fuel with
  | zero => intro s h; exact h
  | succ fuel ih =>
    intro s h
    simp only [CleanTranscript.pairFixAux]
    split
    · exact h
    · apply ih
      obtain ⟨u, v, rfl⟩ := h
      unfold CleanTranscript.pairSubL
      exact CleanTranscript.pairSubF_marker _ false u v

/-! ## Marker preservation through the triple substitution pass -/

theorem CleanTranscript.chunksLen_dropLast_le : ∀ (cs : List (List Char)),
    CleanTranscript.chunksLen cs.dropLast ≤ CleanTranscript.chunksLen cs := by
  intro cs
  induction cs with
  | nil => exact Nat.le_refl _
  | cons a cs ih =>
    cases cs with
    | nil => simp [CleanTranscript.chunksLen]
    | cons b cs2 =>
      have hdl : (a :: b :: cs2).dropLast = a :: (b :: cs2).dropLast := rfl
      rw [hdl]
      simp only [CleanTranscript.chunksLen, List.map_cons, List.sum_cons]
      exact Nat.add_le_add_left (by simpa only [CleanTranscript.chunksLen] using ih) _

theorem CleanTranscript.tripleTryF_le : ∀ (fuel : Nat) (t : List Char)
    (cs : List (List Char)) (len : Nat),
    CleanTranscript.tripleTryF fuel t cs = some len →
    len ≤ CleanTranscript.chunksLen cs := by
  intro fuel
  induction fuel with
  | zero =>
    intro t cs len h
    exact absurd h (by simp [CleanTranscript.tripleTryF])
  | succ fuel ih =>
    intro t cs len h
    simp only [CleanTranscript.tripleTryF] at h
    split at h
    · exact absurd h (by simp)
    · split at h
      · simp only [Option.some.injEq] at h
        subst h
        exact Nat.le_refl _
      · exact Nat.le_trans (ih t cs.dropLast len h)
          (CleanTranscript.chunksLen_dropLast_le cs)

theorem CleanTranscript.repChunksF_take_chars : ∀ (fuel : Nat) (w t : List Char),
    (∀ c ∈ w, isWordChar c = true) →
    ∀ c ∈ t.take (CleanTranscript.chunksLen (CleanTranscript.repChunksF fuel w t)),
      isSpaceChar c = true ∨ isWordChar c = true := by
  intro fuel
  induction fuel with
  | zero =>
    intro w t _ c hc
    simp [CleanTranscript.repChunksF, CleanTranscript.chunksLen] at hc
  | succ fuel ih =>
    intro w t hw c hc
    cases t with
    | nil => simp at hc
    | cons d t2 =>
      simp only [CleanTranscript.repChunksF] at hc
      split at hc
      · rename_i hd
        split at hc
        · rename_i hci
          have h1 : t2.takeWhile isSpaceChar ++ t2.dropWhile isSpaceChar = t2 :=
            List.takeWhile_append_dropWhile _ _
          have h2 : (t2.dropWhile isSpaceChar).take w.length ++
              (t2.dropWhile isSpaceChar).drop w.length = t2.dropWhile isSpaceChar :=
            List.take_append_drop _ _
          have hsplit : d :: t2 =
              ((d :: t2.takeWhile isSpaceChar) ++
                (t2.dropWhile isSpaceChar).take w.length) ++
                (t2.dropWhile isSpaceChar).drop w.length :=
            calc d :: t2
                = d :: (t2.takeWhile isSpaceChar ++ t2.dropWhile isSpaceChar) :=
                  congrArg (d :: ·) h1.symm
              _ = d :: (t2.takeWhile isSpaceChar ++
                    ((t2.dropWhile isSpaceChar).take w.length ++
                      (t2.dropWhile isSpaceChar).drop w.length)) :=
                  congrArg (fun x => d :: (t2.takeWhile isSpaceChar ++ x)) h2.symm
              _ = ((d :: t2.takeWhile isSpaceChar) ++
                    (t2.dropWhile isSpaceChar).take w.length) ++
                    (t2.dropWhile isSpaceChar).drop w.length := by simp
          rw [hsplit] at hc
          simp only [CleanTranscript.chunksLen, List.map_cons, List.sum_cons] at hc
          rw [show ((d :: t2.takeWhile isSpaceChar) ++
              (t2.dropWhile isSpaceChar).take w.length).length +
              (List.map List.length (CleanTranscript.repChunksF fuel w
                ((t2.dropWhile isSpaceChar).drop w.length))).sum =
              ((d :: t2.takeWhile isSpaceChar) ++
              (t2.dropWhile isSpaceChar).take w.length).length +
              CleanTranscript.chunksLen (CleanTranscript.repChunksF fuel w
                ((t2.dropWhile isSpaceChar).drop w.length)) from rfl] at hc
          rw [List.take_append] at hc
          rcases List.mem_append.mp hc with hc2 | hc2
          · rcases List.mem_append.mp hc2 with hc3 | hc3
            · rcases List.mem_cons.mp hc3 with hc4 | hc4
              · exact Or.inl (hc4 ▸ hd)
              · exact Or.inl (List.mem_takeWhile_imp hc4)
            · exact Or.inr (ciEqL_word hci hw c hc3)
          · exact ih w ((t2.dropWhile isSpaceChar).drop w.length) hw c hc2
        · simp [CleanTranscript.chunksLen] at hc
      · simp [CleanTranscript.chunksLen] at hc

theorem CleanTranscript.tripleMatch_span {s w after : List Char}
    (h : CleanTranscript.tripleMatch s = some (w, after)) :
    ∃ mid, s = w ++ mid ++ after ∧ (∀ c ∈ w, isWordChar c = true) ∧
      (∀ c ∈ mid, isSpaceChar c = true ∨ isWordChar c = true) := by
  simp only [CleanTranscript.tripleMatch] at h
  split at h
  · exact absurd h (by simp)
  · split at h
    · rename_i len hlen
      simp only [Option.some.injEq, Prod.mk.injEq] at h
      obtain ⟨hw2, ha⟩ := h
      subst hw2
      subst ha
      unfold CleanTranscript.tripleTry CleanTranscript.repChunks at hlen
      have hle := CleanTranscript.tripleTryF_le _ _ _ _ hlen
      have hwc : ∀ c ∈ s.takeWhile isWordChar, isWordChar c = true :=
        fun c hc => List.mem_takeWhile_imp hc
      refine ⟨(s.dropWhile isWordChar).take len, ?_, hwc, ?_⟩
      · have h1 : s.takeWhile isWordChar ++ s.dropWhile isWordChar = s :=
          List.takeWhile_append_dropWhile _ _
        have h2 : (s.dropWhile isWordChar).take len ++
            (s.dropWhile isWordChar).drop len = s.dropWhile isWordChar :=
          List.take_append_drop _ _
        calc s = s.takeWhile isWordChar ++ s.dropWhile isWordChar := h1.symm
          _ = s.takeWhile isWordChar ++ ((s.dropWhile isWordChar).take len ++
              (s.dropWhile isWordChar).drop len) :=
            congrArg (s.takeWhile isWordChar ++ ·) h2.symm
          _ = s.takeWhile isWordChar ++ (s.dropWhile isWordChar).take len ++
              (s.dropWhile isWordChar).drop len := by simp
      · intro c hc
        have hmem : c ∈ (s.dropWhile isWordChar).take
            (CleanTranscript.chunksLen (CleanTranscript.repChunksF
              (s.dropWhile isWordChar).length (s.takeWhile isWordChar)
              (s.dropWhile isWordChar))) := by
          have htt : ((s.dropWhile isWordChar).take
              (CleanTranscript.chunksLen (CleanTranscript.repChunksF
                (s.dropWhile isWordChar).length (s.takeWhile isWordChar)
                (s.dropWhile isWordChar)))).take len =
              (s.dropWhile isWordChar).take len := by
            rw [List.take_take, Nat.min_eq_left hle]
          rw [← htt] at hc
          exact List.take_subset _ _ hc
        exact CleanTranscript.repChunksF_take_chars _ _ _ hwc c hmem
    · exact absurd h (by simp)

theorem CleanTranscript.tripleSubF_word_run : ∀ (fuel : Nat) (ws v : List Char),
    (∀ c ∈ ws, isWordChar c = true) →
    ∃ fuel2 pw2, CleanTranscript.tripleSubF fuel true (ws ++ v) =
      ws ++ CleanTranscript.tripleSubF fuel2 pw2 v := by
  intro fuel
  induction fuel with
  | zero =>
    intro ws v _
    exact ⟨0, true, by simp [CleanTranscript.tripleSubF]⟩
  | succ fuel ih =>
    intro ws v hws
    cases ws with
    | nil => exact ⟨fuel + 1, true, rfl⟩
    | cons c ws2 =>
      have hcw : isWordChar c = true := hws c (by simp)
      obtain ⟨f2, p2, heq⟩ := ih ws2 v (fun x hx => hws x (by simp [hx]))
      refine ⟨f2, p2, ?_⟩
      show c :: CleanTranscript.tripleSubF fuel (isWordChar c) (ws2 ++ v) =
        c :: (ws2 ++ CleanTranscript.tripleSubF f2 p2 v)
      rw [hcw, heq]

theorem CleanTranscript.tripleSubF_marker_step : ∀ (fuel : Nat) (pw : Bool) (v : List Char),
    ∃ r, CleanTranscript.tripleSubF fuel pw (CleanTranscript.turnMarker ++ v) =
      CleanTranscript.turnMarker ++ r := by
  intro fuel pw v
  cases fuel with
  | zero => exact ⟨v, rfl⟩
  | succ fuel =>
    have hstep1 : CleanTranscript.tripleSubF (fuel + 1) pw
        (CleanTranscript.turnMarker ++ v) =
        '[' :: CleanTranscript.tripleSubF fuel false ("SPEAKER_TURN]".data ++ v) := by
      cases pw <;> rfl
    cases fuel with
    | zero =>
      refine ⟨v, ?_⟩
      rw [hstep1]
      rfl
    | succ fuel =>
      have hstep2 : CleanTranscript.tripleSubF (fuel + 1) false
          ("SPEAKER_TURN]".data ++ v) =
          'S' :: CleanTranscript.tripleSubF fuel true ("PEAKER_TURN".data ++ (']' :: v)) := by
        rfl
      obtain ⟨f2, p2, heq⟩ := CleanTranscript.tripleSubF_word_run fuel "PEAKER_TURN".data
        (']' :: v) (by decide)
      have hstep3 : ∃ r2, CleanTranscript.tripleSubF f2 p2 (']' :: v) = ']' :: r2 := by
        cases f2 with
        | zero => exact ⟨v, rfl⟩
        | succ f2 => cases p2 <;> exact ⟨_, rfl⟩
      obtain ⟨r2, hr2⟩ := hstep3
      refine ⟨r2, ?_⟩
      rw [hstep1, hstep2, heq, hr2]
      rfl

theorem CleanTranscript.tripleSubF_marker : ∀ (fuel : Nat) (pw : Bool) (u v : List Char),
    occursIn CleanTranscript.turnMarker
      (CleanTranscript.tripleSubF fuel pw (u ++ CleanTranscript.turnMarker ++ v)) := by
  intro fuel
  induction fuel with
  | zero =>
    intro pw u v
    exact ⟨u, v, rfl⟩
  | succ fuel ih =>
    intro pw u v
    cases u with
    | nil =>
      obtain ⟨r, hr⟩ := CleanTranscript.tripleSubF_marker_step (fuel + 1) pw v
      rw [List.nil_append, hr]
      exact occursIn_self _ r
    | cons c u2 =>
      show occursIn CleanTranscript.turnMarker (CleanTranscript.tripleSubF (fuel + 1) pw
        (c :: (u2 ++ CleanTranscript.turnMarker ++ v)))
      simp only [CleanTranscript.tripleSubF]
      split
      · split
        · rename_i w after hmat
          obtain ⟨mid, hspan, hw, hmid⟩ := CleanTranscript.tripleMatch_span hmat
          have hchars : ∀ x ∈ w ++ mid, x ≠ '[' := by
            intro x hx
            rcases List.mem_append.mp hx with hx2 | hx2
            · exact not_lbrack_of_ws (Or.inr (hw x hx2))
            · exact not_lbrack_of_ws (hmid x hx2)
          have hocc : occursIn CleanTranscript.turnMarker (w ++ mid ++ after) := by
            rw [← hspan]
            exact ⟨c :: u2, v, by simp⟩
          have htm : CleanTranscript.turnMarker = '[' :: "SPEAKER_TURN]".data := rfl
          rw [htm] at hocc
          have hafter := occursIn_right_of_head (w ++ mid) hchars hocc
          rw [← htm] at hafter
          obtain ⟨u3, v3, hae⟩ := hafter
          rw [hae]
          exact occursIn_append_left w (ih true u3 v3)
        · exact occursIn_cons c (ih (isWordChar c) u2 v)
      · exact occursIn_cons c (ih (isWordChar c) u2 v)

/-- The Word Stutter Collapser preserves every `[SPEAKER_TURN]` occurrence:
neither the pair fixed-point loop nor the triple pass can consume the
marker, whose brackets are neither word nor whitespace characters. -/
theorem CleanTranscript.remove_word_stuttering_marker {s : List Char}
    (h : occursIn CleanTranscript.turnMarker s) :
    occursIn CleanTranscript.turnMarker (CleanTranscript.remove_word_stuttering s) := by
  unfold CleanTranscript.remove_word_stuttering
  have h2 := CleanTranscript.pairFixAux_marker (s.length + 1) s h
  obtain ⟨u, v, huv⟩ := h2
  rw [huv]
  unfold CleanTranscript.tripleSubL
  exact CleanTranscript.tripleSubF_marker _ false u v

/-! ## The deduplication step always keeps marker lines -/

theorem isPrefixOf_append_self : ∀ (p v : List Char), p.isPrefixOf (p ++ v) = true := by
  intro p
  induction p with
  | nil => intro v; cases v <;> rfl
  | cons c p2 ih =>
    intro v
    simp only [List.cons_append, List.isPrefixOf, beq_self_eq_true, Bool.true_and]
    exact ih v

theorem containsSeq_of_occursIn {p : List Char} : ∀ {s : List Char}, occursIn p s →
    containsSeq p s = true := by
  intro s h
  obtain ⟨u, v, rfl⟩ := h
  induction u with
  | nil =>
    cases p with
    | nil =>
      cases v with
      | nil => rfl
      | cons c v2 => rfl
    | cons c p2 =>
      simp only [List.nil_append, List.cons_append, containsSeq, Bool.or_eq_true]
      exact Or.inl (isPrefixOf_append_self (c :: p2) v)
  | cons c u2 ih =>
    simp only [List.cons_append, containsSeq, Bool.or_eq_true]
    exact Or.inr ih

/-- A line containing the turn marker is always appended to the kept
list, whatever the threshold and the previously kept lines. -/
theorem CleanTranscript.dedup_marker_kept (τ : ℚ) (kept : List (List Char))
    (line : List Char) (h : occursIn CleanTranscript.turnMarker line) :
    CleanTranscript.dedupStep τ kept line = kept ++ [line] := by
  unfold CleanTranscript.dedupStep
  cases hk : kept.getLast? with
  | none =>
    rw [List.getLast?_eq_none_iff] at hk
    subst hk
    rfl
  | some prev =>
    simp [containsSeq_of_occursIn h]

/-- C6: counterexample — the claim asserts the Text Normalizer leaves the
turn marker present verbatim, but `clean_text` deletes the whole tag span
`<i [SPEAKER_TURN] x>`, marker included, so the marker does not survive
normalization on a line whose marker sits inside an angle-bracket span. -/
theorem C6_counterexample :
    occursIn CleanTranscript.turnMarker "<i [SPEAKER_TURN] x>".data ∧
    ¬ occursIn CleanTranscript.turnMarker
      (CleanTranscript.clean_text "<i [SPEAKER_TURN] x>".data) := by
  constructor
  · exact ⟨"<i ".data, " x>".data, rfl⟩
  · rw [show CleanTranscript.clean_text "<i [SPEAKER_TURN] x>".data = [] from by decide]
    rintro ⟨u, v, huv⟩
    have hlen := congrArg List.length huv
    simp only [List.length_append, List.length_nil] at hlen
    have h14 : CleanTranscript.turnMarker.length = 14 := by decide
    omega

/-- C6 (corrected): a line containing `[SPEAKER_TURN]` is always appended
by the deduplication step regardless of the threshold, the kept lines and
the similarity ratio; the Text Normalizer preserves the marker for every
line containing no `<` (inside an angle-bracket span the marker is deleted
with the tag); and the Word Stutter Collapser preserves the marker in
every string. -/
theorem C6_amended :
    (∀ (τ : ℚ) (kept : List (List Char)) (line : List Char),
      occursIn CleanTranscript.turnMarker line →
      CleanTranscript.dedupStep τ kept line = kept ++ [line]) ∧
    (∀ s : List Char, (∀ c ∈ s, c ≠ '<') → occursIn CleanTranscript.turnMarker s →
      occursIn CleanTranscript.turnMarker (CleanTranscript.clean_text s)) ∧
    (∀ s : List Char, occursIn CleanTranscript.turnMarker s →
      occursIn CleanTranscript.turnMarker (CleanTranscript.remove_word_stuttering s)) :=
  ⟨CleanTranscript.dedup_marker_kept,
   fun _ => CleanTranscript.clean_text_marker,
   fun _ => CleanTranscript.remove_word_stuttering_marker⟩

/-- C6 witness: the three conjuncts of the corrected claim applied on the
concrete line `so so [SPEAKER_TURN] bye` with a nonempty kept list. -/
theorem C6_witness :
    CleanTranscript.dedupStep (4 / 5) ["hello world".data]
        "so so [SPEAKER_TURN] bye".data =
      ["hello world".data] ++ ["so so [SPEAKER_TURN] bye".data] ∧
    occursIn CleanTranscript.turnMarker
      (CleanTranscript.clean_text "so so [SPEAKER_TURN] bye".data) ∧
    occursIn CleanTranscript.turnMarker
      (CleanTranscript.remove_word_stuttering "so so [SPEAKER_TURN] bye".data) := by
  have hocc : occursIn CleanTranscript.turnMarker "so so [SPEAKER_TURN] bye".data :=
    ⟨"so so ".data, " bye".data, rfl⟩
  exact ⟨C6_amended.1 (4 / 5) ["hello world".data] _ hocc,
    C6_amended.2.1 _ (by decide) hocc,
    C6_amended.2.2 _ hocc⟩
/-! ## Identity of the NOTE and STYLE removals on newline-sparse input -/

theorem CleanTranscript.findNN_tail {c : Char} {rest : List Char}
    (h : CleanTranscript.findNN (c :: rest) = none) :
    CleanTranscript.findNN rest = none := by
  unfold CleanTranscript.findNN at h
  split at h
  · exact absurd h (by simp)
  · rename_i e
    simp only [List.cons.injEq] at e
    rwa [e.2]
  · rename_i e
    exact absurd e (by simp)

theorem CleanTranscript.findNN_cons_ne {c : Char} (rest : List Char) (hc : c ≠ '\n') :
    CleanTranscript.findNN (c :: rest) = CleanTranscript.findNN rest := by
  conv_lhs => unfold CleanTranscript.findNN
  split
  · rename_i e
    simp only [List.cons.injEq] at e
    exact absurd e.1 hc
  · rename_i e
    simp only [List.cons.injEq] at e
    rw [e.2]
  · rename_i e
    exact absurd e (by simp)

theorem CleanTranscript.findNN_none_of_no_nl {t : List Char} (h : ∀ c ∈ t, c ≠ '\n') :
    CleanTranscript.findNN t = none := by
  induction t with
  | nil => rfl
  | cons c rest ih =>
    rw [CleanTranscript.findNN_cons_ne rest (h c (by simp))]
    exact ih (fun x hx => h x (by simp [hx]))

theorem CleanTranscript.findNN_nl_cons {d : Char} (t2 : List Char) (hd : d ≠ '\n') :
    CleanTranscript.findNN ('\n' :: d :: t2) = CleanTranscript.findNN (d :: t2) := by
  conv_lhs => unfold CleanTranscript.findNN
  split
  · rename_i e
    simp only [List.cons.injEq] at e
    exact absurd e.2.1 hd
  · rename_i e
    simp only [List.cons.injEq] at e
    rw [e.2]
  · rename_i e
    exact absurd e (by simp)

theorem CleanTranscript.findNN_none_append : ∀ (a : List Char), (∀ c ∈ a, c ≠ '\n') →
    ∀ (t : List Char), (∀ c ∈ t, c ≠ '\n') →
      CleanTranscript.findNN (a ++ '\n' :: t) = none := by
  intro a
  induction a with
  | nil =>
    intro _ t ht
    cases t with
    | nil => rfl
    | cons d t2 =>
      rw [List.nil_append, CleanTranscript.findNN_nl_cons t2 (ht d (by simp))]
      exact CleanTranscript.findNN_none_of_no_nl ht
  | cons c a2 ih =>
    intro ha t ht
    rw [List.cons_append, CleanTranscript.findNN_cons_ne _ (ha c (by simp))]
    exact ih (fun x hx => ha x (by simp [hx])) t ht

theorem CleanTranscript.noteAux_some_noNN : ∀ (s : List Char),
    CleanTranscript.findNN s = none → ∀ buf,
      CleanTranscript.noteAux (some buf) s = buf.reverse ++ s := by
  intro s
  induction s with
  | nil => intro _ buf; simp [CleanTranscript.noteAux]
  | cons c rest ih =>
    intro hf buf
    have hfr := CleanTranscript.findNN_tail hf
    unfold CleanTranscript.noteAux
    split
    · rename_i e1 e2
      exact absurd e2 (by simp)
    · rename_i e1 e2
      exact absurd e2 (by simp)
    · rename_i e1 e2
      exact absurd e1 (by simp)
    · rename_i e1 e2
      exact absurd e1 (by simp)
    · rename_i e1 e2
      rw [e2] at hf
      simp [CleanTranscript.findNN] at hf
    · rename_i buf2 c2 rest2 e1 e2
      simp only [Option.some.injEq] at e1
      simp only [List.cons.injEq] at e2
      rw [← e1, ← e2.1, ← e2.2]
      rw [ih hfr (c :: buf)]
      simp

theorem CleanTranscript.noteAux_none_noNN : ∀ (s : List Char),
    CleanTranscript.findNN s = none → CleanTranscript.noteAux none s = s := by
  intro s
  induction s with
  | nil => intro _; rfl
  | cons c rest ih =>
    intro hf
    have hfr := CleanTranscript.findNN_tail hf
    unfold CleanTranscript.noteAux
    split
    · rename_i e1 e2
      exact absurd e2 (by simp)
    · rename_i e1 e2
      exact absurd e1 (by simp)
    · rename_i rest2 e1 e2
      have hr2 : CleanTranscript.findNN rest2 = none := by
        have h1 : CleanTranscript.findNN ('O' :: 'T' :: 'E' :: rest2) = none := by
          have := hfr
          rw [show rest = 'O' :: 'T' :: 'E' :: rest2 from by
            simpa [List.cons.injEq] using congrArg List.tail e2] at this
          exact this
        exact CleanTranscript.findNN_tail (CleanTranscript.findNN_tail
          (CleanTranscript.findNN_tail h1))
      rw [CleanTranscript.noteAux_some_noNN rest2 hr2 ['E', 'T', 'O', 'N']]
      rw [e2]
      rfl
    · rename_i c2 rest2 e1 e2
      simp only [List.cons.injEq] at e2
      rw [← e2.1, ← e2.2]
      rw [ih hfr]
    · rename_i e1 e2
      exact absurd e1 (by simp)
    · rename_i buf2 c2 rest2 e1 e2
      exact absurd e1 (by simp)

theorem CleanTranscript.styleAux_some_noNN : ∀ (s : List Char),
    CleanTranscript.findNN s = none → ∀ buf,
      CleanTranscript.styleAux (some buf) s = buf.reverse ++ s := by
  intro s
  induction s with
  | nil => intro _ buf; simp [CleanTranscript.styleAux]
  | cons c rest ih =>
    intro hf buf
    have hfr := CleanTranscript.findNN_tail hf
    unfold CleanTranscript.styleAux
    split
    · rename_i e1 e2
      exact absurd e2 (by simp)
    · rename_i e1 e2
      exact absurd e2 (by simp)
    · rename_i e1 e2
      exact absurd e1 (by simp)
    · rename_i e1 e2
      exact absurd e1 (by simp)
    · rename_i e1 e2
      rw [e2] at hf
      simp [CleanTranscript.findNN] at hf
    · rename_i buf2 c2 rest2 e1 e2
      simp only [Option.some.injEq] at e1
      simp only [List.cons.injEq] at e2
      rw [← e1, ← e2.1, ← e2.2]
      rw [ih hfr (c :: buf)]
      simp

theorem CleanTranscript.styleAux_none_noNN : ∀ (s : List Char),
    CleanTranscript.findNN s = none → CleanTranscript.styleAux none s = s := by
  intro s
  induction s with
  | nil => intro _; rfl
  | cons c rest ih =>
    intro hf
    have hfr := CleanTranscript.findNN_tail hf
    unfold CleanTranscript.styleAux
    split
    · rename_i e1 e2
      exact absurd e2 (by simp)
    · rename_i e1 e2
      exact absurd e1 (by simp)
    · rename_i rest2 e1 e2
      have hr2 : CleanTranscript.findNN rest2 = none := by
        have h1 : CleanTranscript.findNN ('T' :: 'Y' :: 'L' :: 'E' :: rest2) = none := by
          have := hfr
          rw [show rest = 'T' :: 'Y' :: 'L' :: 'E' :: rest2 from by
            simpa [List.cons.injEq] using congrArg List.tail e2] at this
          exact this
        exact CleanTranscript.findNN_tail (CleanTranscript.findNN_tail
          (CleanTranscript.findNN_tail (CleanTranscript.findNN_tail h1)))
      rw [CleanTranscript.styleAux_some_noNN rest2 hr2 ['E', 'L', 'Y', 'T', 'S']]
      rw [e2]
      rfl
    · rename_i c2 rest2 e1 e2
      simp only [List.cons.injEq] at e2
      rw [← e2.1, ← e2.2]
      rw [ih hfr]
    · rename_i e1 e2
      exact absurd e1 (by simp)
    · rename_i buf2 c2 rest2 e1 e2
      exact absurd e1 (by simp)

/-! ## Line splitting of newline-sparse input -/

theorem splitNLChar_no_nl {t : List Char} (h : ∀ c ∈ t, c ≠ '\n') :
    splitNLChar t = [t] := by
  induction t with
  | nil => rfl
  | cons c rest ih =>
    simp only [splitNLChar]
    rw [if_neg (h c (by simp))]
    rw [ih (fun x hx => h x (by simp [hx]))]

theorem splitNLChar_concrete : ∀ (a : List Char), (∀ c ∈ a, c ≠ '\n') → ∀ (b : List Char),
    splitNLChar (a ++ '\n' :: b) = a :: splitNLChar b := by
  intro a
  induction a with
  | nil =>
    intro _ b
    rfl
  | cons c a2 ih =>
    intro h b
    simp only [List.cons_append, splitNLChar, List.append_eq]
    rw [if_neg (h c (by simp))]
    rw [ih (fun x hx => h x (by simp [hx])) b]

theorem mem_of_getLast?_eq {t : List Char} {c : Char} (h : t.getLast? = some c) :
    c ∈ t := by
  cases t with
  | nil => simp at h
  | cons d t2 =>
    have h2 : (d :: t2).getLast (by simp) ∈ d :: t2 := List.getLast_mem _
    rw [List.getLast?_eq_getLast _ (by simp), Option.some.injEq] at h
    exact h ▸ h2

/-! ## Identity of the vttclean normalizer on clean input -/

theorem Vttclean.vcAux_true_cancel {s : List Char}
    (h : ∀ c, s.head? = some c → isSpaceChar c = false) :
    Vttclean.vcAux none true s = Vttclean.vcAux none false s := by
  cases s with
  | nil => rfl
  | cons c rest =>
    simp only [Vttclean.vcAux]
    by_cases hc : c = '<'
    · rw [if_pos hc, if_pos hc]
    · rw [if_neg hc, if_neg hc, h c rfl]
      simp

theorem Vttclean.vcAux_id {s : List Char}
    (hlt : ∀ c ∈ s, c ≠ '<')
    (h1 : ∀ c ∈ s, isSpaceChar c = true → c = ' ')
    (h2 : containsSeq "  ".data s = false) :
    Vttclean.vcAux none false s = s := by
  induction s with
  | nil => rfl
  | cons c rest ih =>
    have h2r : containsSeq "  ".data rest = false := by
      have h3 := h2
      unfold containsSeq at h3
      exact (Bool.or_eq_false_iff.mp h3).2
    have ihr := ih (fun x hx => hlt x (by simp [hx]))
      (fun x hx hsx => h1 x (by simp [hx]) hsx) h2r
    by_cases hc : isSpaceChar c = true
    · have hc2 : c = ' ' := h1 c (by simp) hc
      subst hc2
      have hrh : ∀ d, rest.head? = some d → isSpaceChar d = false := by
        intro d hd
        cases rest with
        | nil => simp at hd
        | cons e t =>
          have he : e = d := by simpa using hd
          subst he
          by_contra hne
          have hd2 : isSpaceChar e = true := by
            cases hdv : isSpaceChar e
            · exact absurd hdv hne
            · rfl
          have hds : e = ' ' := h1 e (by simp) hd2
          subst hds
          have hcontra : containsSeq "  ".data (' ' :: ' ' :: t) = true := by
            unfold containsSeq
            simp [List.isPrefixOf]
          rw [hcontra] at h2
          exact absurd h2 (by simp)
      have hstep : Vttclean.vcAux none false (' ' :: rest) =
          ' ' :: Vttclean.vcAux none true rest := by
        simp only [Vttclean.vcAux]
        rw [if_neg (by decide), hc]
        simp
      rw [hstep, Vttclean.vcAux_true_cancel hrh, ihr]
    · have hstep : Vttclean.vcAux none false (c :: rest) =
          c :: Vttclean.vcAux none false rest := by
        simp only [Vttclean.vcAux]
        rw [if_neg (hlt c (by simp)), show isSpaceChar c = false by simpa using hc]
        simp
      rw [hstep, ihr]

theorem Vttclean.clean_text_id_vc {s : List Char}
    (hlt : ∀ c ∈ s, c ≠ '<')
    (hsp : ∀ c ∈ s, isSpaceChar c = true → c = ' ')
    (hdd : containsSeq "  ".data s = false)
    (hhead : ∀ c, s.head? = some c → isSpaceChar c = false)
    (hlast : ∀ c, s.getLast? = some c → isSpaceChar c = false) :
    Vttclean.clean_text s = s := by
  unfold Vttclean.clean_text
  rw [Vttclean.vcAux_id hlt hsp hdd, pyStrip_id hhead hlast]

/-- The identity of the clean-transcript normalizer on clean input,
assembled from the per-stage identity lemmas. -/
theorem CleanTranscript.clean_text_plain_id {s : List Char}
    (hlt : ∀ c ∈ s, c ≠ '<') (hamp : ∀ c ∈ s, c ≠ '&')
    (hspk : CleanTranscript.speakerCutLen s = none)
    (hsp : ∀ c ∈ s, isSpaceChar c = true → c = ' ')
    (hdd : containsSeq "  ".data s = false)
    (hhead : ∀ c, s.head? = some c → isSpaceChar c = false)
    (hlast : ∀ c, s.getLast? = some c → isSpaceChar c = false) :
    CleanTranscript.clean_text s = s := by
  unfold CleanTranscript.clean_text
  rw [show CleanTranscript.tagSub s = CleanTranscript.tagAux none s from rfl,
    CleanTranscript.tagAux_none_id hlt,
    CleanTranscript.speakerSub_id hspk,
    lstripL_id hhead,
    show CleanTranscript.collapseWs s = CleanTranscript.collapseAux false s from rfl,
    CleanTranscript.collapseAux_id hsp hdd,
    show CleanTranscript.entSub s = CleanTranscript.entAux none s from rfl,
    CleanTranscript.entAux_none_id hamp,
    pyStrip_id hhead hlast]

set_option maxHeartbeats 2000000 in
/-- C9 (corrected): the variants agree on a single strict unbracketed
timestamp-range line followed by one clean text line — no newlines, tags,
entities, speaker lead or irregular whitespace in the text — both
emitting the truncated start timestamp and the unchanged text. -/
theorem C9_agree_on_plain_block (t : List Char) (hne : t ≠ [])
    (hnl : ∀ c ∈ t, c ≠ '\n')
    (hlt : ∀ c ∈ t, c ≠ '<') (hamp : ∀ c ∈ t, c ≠ '&')
    (hspk : CleanTranscript.speakerCutLen t = none)
    (hsp : ∀ c ∈ t, isSpaceChar c = true → c = ' ')
    (hdd : containsSeq "  ".data t = false)
    (hhead : ∀ c, t.head? = some c → isSpaceChar c = false)
    (hlast : ∀ c, t.getLast? = some c → isSpaceChar c = false) :
    CleanTranscript.process_vtt ("00:00:00.000 --> 00:00:01.000\n".data ++ t) =
      Vttclean.process_vtt ("00:00:00.000 --> 00:00:01.000\n".data ++ t) ∧
    CleanTranscript.process_vtt ("00:00:00.000 --> 00:00:01.000\n".data ++ t) =
      "00:00:00 ".data ++ t := by
  have hTempty : t.isEmpty = false := by simpa [List.isEmpty_iff] using hne
  have htStrip : pyStrip t = t := pyStrip_id hhead hlast
  have hct : CleanTranscript.clean_text t = t :=
    CleanTranscript.clean_text_plain_id hlt hamp hspk hsp hdd hhead hlast
  have hvc : Vttclean.clean_text t = t :=
    Vttclean.clean_text_id_vc hlt hsp hdd hhead hlast
  have hfind : CleanTranscript.findNN ("00:00:00.000 --> 00:00:01.000\n".data ++ t) = none := by
    show CleanTranscript.findNN
      ("00:00:00.000 --> 00:00:01.000".data ++ '\n' :: t) = none
    exact CleanTranscript.findNN_none_append _ (by decide) t hnl
  have hsplit : splitNLChar ("00:00:00.000 --> 00:00:01.000\n".data ++ t) =
      ["00:00:00.000 --> 00:00:01.000".data, t] := by
    show splitNLChar ("00:00:00.000 --> 00:00:01.000".data ++ '\n' :: t) = _
    rw [splitNLChar_concrete _ (by decide) t, splitNLChar_no_nl hnl]
  have hglast : ("00:00:00.000 --> 00:00:01.000\n".data ++ t).getLast? = t.getLast? :=
    List.getLast?_append_of_ne_nil _ hne
  have hglne : ¬ ("00:00:00.000 --> 00:00:01.000\n".data ++ t).getLast? = some '\n' := by
    rw [hglast]
    intro hEq
    exact absurd rfl (hnl '\n' (mem_of_getLast?_eq hEq))
  have hsh : ∀ c, ("00:00:00.000 --> 00:00:01.000\n".data ++ t).head? = some c →
      isSpaceChar c = false := by
    intro c hc
    have h0 : ("00:00:00.000 --> 00:00:01.000\n".data ++ t).head? = some '0' := rfl
    rw [h0, Option.some.injEq] at hc
    rw [← hc]
    decide
  have hsl : ∀ c, ("00:00:00.000 --> 00:00:01.000\n".data ++ t).getLast? = some c →
      isSpaceChar c = false := by
    intro c hc
    rw [hglast] at hc
    exact hlast c hc
  have hps : pyStrip ("00:00:00.000 --> 00:00:01.000\n".data ++ t) =
      "00:00:00.000 --> 00:00:01.000\n".data ++ t := pyStrip_id hsh hsl
  have hhc : CleanTranscript.headerCut ("00:00:00.000 --> 00:00:01.000\n".data ++ t) =
      "00:00:00.000 --> 00:00:01.000\n".data ++ t := rfl
  have hnc : CleanTranscript.noteCut ("00:00:00.000 --> 00:00:01.000\n".data ++ t) =
      "00:00:00.000 --> 00:00:01.000\n".data ++ t :=
    CleanTranscript.noteAux_none_noNN _ hfind
  have hsc : CleanTranscript.styleCut ("00:00:00.000 --> 00:00:01.000\n".data ++ t) =
      "00:00:00.000 --> 00:00:01.000\n".data ++ t :=
    CleanTranscript.styleAux_none_noNN _ hfind
  have hsb : CleanTranscript.splitBlocksStripped
      ("00:00:00.000 --> 00:00:01.000\n".data ++ t) =
      ["00:00:00.000 --> 00:00:01.000\n".data ++ t] := by
    show (((splitNLChar ("00:00:00.000 --> 00:00:01.000\n".data ++ t)).splitOnP
        List.isEmpty).filter (fun r => !r.isEmpty)).map joinNL = _
    rw [hsplit]
    have hnotEmpty : ∀ x ∈ ["00:00:00.000 --> 00:00:01.000".data, t],
        ¬ List.isEmpty x = true := by
      intro x hx
      rcases List.mem_cons.mp hx with h1 | h1
      · subst h1; decide
      · have h3 : x = t := by simpa using h1
        subst h3
        simp [hTempty]
    rw [List.splitOnP_eq_single _ _ hnotEmpty]
    rfl
  have hpb : CleanTranscript.processBlock ("00:00:00.000 --> 00:00:01.000\n".data ++ t) =
      some ("00:00:00".data ++ ' ' :: t) := by
    unfold CleanTranscript.processBlock
    rw [hps, hsplit]
    show (if (CleanTranscript.clean_text (pyStrip (joinSp [t]))).isEmpty = true then none
      else some ("00:00:00".data ++
        ' ' :: CleanTranscript.clean_text (pyStrip (joinSp [t])))) = _
    rw [show joinSp [t] = t from rfl, htStrip, hct, hTempty]
    rfl
  have hCT : CleanTranscript.process_vtt ("00:00:00.000 --> 00:00:01.000\n".data ++ t) =
      "00:00:00".data ++ ' ' :: t := by
    unfold CleanTranscript.process_vtt
    rw [hhc, hnc, hsc, hps, hsb]
    simp only [List.filterMap_cons, List.filterMap_nil, hpb]
    rfl
  have hpl : pySplitlines ("00:00:00.000 --> 00:00:01.000\n".data ++ t) =
      ["00:00:00.000 --> 00:00:01.000".data, t] := by
    show (if ("00:00:00.000 --> 00:00:01.000\n".data ++ t).getLast? = some '\n'
        then (splitNLChar ("00:00:00.000 --> 00:00:01.000\n".data ++ t)).dropLast
        else splitNLChar ("00:00:00.000 --> 00:00:01.000\n".data ++ t)) = _
    rw [if_neg hglne, hsplit]
  have hvl : Vttclean.vttLoopAux none ["00:00:00.000 --> 00:00:01.000".data, t] =
      ["00:00:00".data ++ ' ' :: t] := by
    show (if (pyStrip t).isEmpty = true
        then Vttclean.emitCaption "00:00:00".data [] ++ Vttclean.vttLoopAux none []
        else Vttclean.vttLoopAux (some ("00:00:00".data, [t])) []) = _
    rw [htStrip, hTempty]
    simp only [Bool.false_eq_true, if_false]
    show (if (Vttclean.clean_text (joinSp [t])).isEmpty = true then []
      else ["00:00:00".data ++ ' ' :: Vttclean.clean_text (joinSp [t])]) = _
    rw [show joinSp [t] = t from rfl, hvc, hTempty]
    rfl
  have hVT : Vttclean.process_vtt ("00:00:00.000 --> 00:00:01.000\n".data ++ t) =
      "00:00:00".data ++ ' ' :: t := by
    unfold Vttclean.process_vtt
    rw [hpl, hvl]
    rfl
  exact ⟨hCT.trans hVT.symm,
    hCT.trans (show "00:00:00".data ++ ' ' :: t = "00:00:00 ".data ++ t from rfl)⟩

/-- C9 witness: the restricted agreement at a concrete block. -/
theorem C9_witness :
    CleanTranscript.process_vtt
        ("00:00:00.000 --> 00:00:01.000\n".data ++ "Hello there".data) =
      Vttclean.process_vtt
        ("00:00:00.000 --> 00:00:01.000\n".data ++ "Hello there".data) ∧
    CleanTranscript.process_vtt
        ("00:00:00.000 --> 00:00:01.000\n".data ++ "Hello there".data) =
      "00:00:00 ".data ++ "Hello there".data :=
  C9_agree_on_plain_block "Hello there".data (by decide) (by decide) (by decide)
    (by decide) (by decide) (by decide) (by decide) (by decide) (by decide)
